import Mathlib

/-!
# SimpleVector (simple_vector.h)

A shallow embedding of the class template `SimpleVector<Type>` and of the
standard algorithms it calls.

* The owning buffer `ArrayPtr<Type>` is a list of cells; its length is the
  number of elements the buffer was allocated for.
* Iterators are raw pointers into the buffer; a pointer is represented by its
  offset from `items_.Get()`, so `begin()` is `0` and `end()` is `size_`.
* Every access to a cell outside the buffer, every failed `assert` and every
  iterator range whose first pointer lies beyond its last one is a `Fault`:
  the operation then yields no vector.
* `size_t` values are natural numbers.  A buffer of `2^63` or more elements
  cannot be allocated, so `size_ + 1` and `capacity_ * 2` never wrap on a
  vector that exists.
* The overloads taking `Type&&` / `Iterator` and the ones taking
  `const Type&` / `ConstIterator` have the same effect on the stored values
  (`std::move` of a range stores the same values as `std::copy`), so each
  pair is embedded once.
* `PushBack` and `Insert` take their argument by reference and read it late:
  `PushBack` after `Resize`, `Insert` after the shift.  An argument is
  therefore an `ArgRef`: an object outside the vector, or a cell of the
  vector's own buffer.  Once `Resize` has replaced the buffer the old block is
  released, and a reference into it reads what the released storage holds,
  which is unspecified (the parameter `stale`).
* The `assert`s are taken as compiled in.
-/

namespace SimpleVec

/-- Ways in which an operation can fail to produce a result. -/
inductive Fault where
  /-- The exception `std::out_of_range` thrown by `At`. -/
  | out_of_range
  /-- An `assert` whose condition is false. -/
  | assert_failed
  /-- A read or write of a cell outside the owned storage. -/
  | out_of_bounds
  /-- An iterator range `[first, last)` with `first` beyond `last`. -/
  | invalid_range
  deriving DecidableEq, Repr

/-! ## The owning buffer -/

/-- Modelled from the spec: `ArrayPtr<Type>` (array_ptr.h is not part of the
sources).  The buffer "exclusively owns a contiguous block of storage"; it is
the list of its cells. -/
abbrev ArrayPtr (α : Type) := List α

/-- Modelled from the spec: the constructor `ArrayPtr(size_t)`, "allocating
storage for exactly that many elements".  The spec leaves the content of fresh
storage unspecified, so it is a parameter: cell `i` of the new block holds
`heap i`. -/
def allocate {α : Type} (heap : Nat → α) (n : Nat) : ArrayPtr α :=
  (List.range n).map heap

/-- Reading `*(items_.Get() + i)`. -/
def loadAt {α : Type} (buf : ArrayPtr α) (i : Nat) : Except Fault α :=
  match buf[i]? with
  | some x => .ok x
  | none => .error .out_of_bounds

/-- Writing `*(items_.Get() + i) = x`. -/
def storeAt {α : Type} (buf : ArrayPtr α) (i : Nat) (x : α) : Except Fault (ArrayPtr α) :=
  if i < buf.length then .ok (buf.set i x) else .error .out_of_bounds

/-! ## Arguments passed by reference -/

/-- The object a parameter of type `const Type&` or `Type&&` is bound to. -/
inductive ArgRef (α : Type) where
  /-- An object outside the storage of the vector, holding `x`. -/
  | outside (x : α)
  /-- The cell at offset `j` of the buffer the vector owns when the call is
  made (as in `v.PushBack(v[j])`). -/
  | cell (j : Nat)
  deriving DecidableEq, Repr

/-- The value the argument holds when the call is made; `buf` is the buffer
of the vector at that time. -/
def ArgRef.value_at_call {α : Type} (buf : ArrayPtr α) : ArgRef α → Option α
  | .outside x => some x
  | .cell j => buf[j]?

/-- The argument is bound to an object that exists when the call is made. -/
def ArgRef.valid {α : Type} (buf : ArrayPtr α) : ArgRef α → Prop
  | .outside _ => True
  | .cell j => j < buf.length

/-- Reading the argument in the course of the call.  `block` is the block that
was the buffer of the vector when the call was made, with its present content;
`released` tells whether that block has been released since.  A cell of a
released block holds unspecified content, `stale j`. -/
def readArg {α : Type} (stale : Nat → α) (block : ArrayPtr α) (released : Bool) :
    ArgRef α → Except Fault α
  | .outside x => .ok x
  | .cell j =>
    if released then
      if j < block.length then .ok (stale j) else .error .out_of_bounds
    else
      loadAt block j

/-! ## Standard algorithms on pointer ranges -/

/-- The loop of `std::fill` / `std::generate`: `n` cells from `first` on. -/
def fillLoop {α : Type} (g : Unit → α) : Nat → Nat → ArrayPtr α → Except Fault (ArrayPtr α)
  | 0, _, buf => .ok buf
  | n + 1, first, buf =>
    match storeAt buf first (g ()) with
    | .ok b => fillLoop g n (first + 1) b
    | .error e => .error e

/-- Algorithm `std::generate(first, last, g)` on one buffer. -/
def std_generate {α : Type} (buf : ArrayPtr α) (first last : Nat) (g : Unit → α) :
    Except Fault (ArrayPtr α) :=
  if last < first then .error .invalid_range else fillLoop g (last - first) first buf

/-- Algorithm `std::fill(first, last, value)` on one buffer. -/
def std_fill {α : Type} (buf : ArrayPtr α) (first last : Nat) (value : α) :
    Except Fault (ArrayPtr α) :=
  std_generate buf first last (fun _ => value)

/-- The loop of `std::copy` / `std::move` from the buffer `src` into another
buffer: `*d_first++ = *first++`, `n` times. -/
def copyLoop {α : Type} (src : ArrayPtr α) :
    Nat → Nat → Nat → ArrayPtr α → Except Fault (ArrayPtr α)
  | 0, _, _, dst => .ok dst
  | n + 1, first, d_first, dst =>
    match loadAt src first with
    | .ok x =>
      match storeAt dst d_first x with
      | .ok b => copyLoop src n (first + 1) (d_first + 1) b
      | .error e => .error e
    | .error e => .error e

/-- Algorithm `std::copy(first, last, d_first)` (and `std::move` on ranges)
from `src` into a different buffer `dst`. -/
def std_copy {α : Type} (src : ArrayPtr α) (first last : Nat) (dst : ArrayPtr α)
    (d_first : Nat) : Except Fault (ArrayPtr α) :=
  if last < first then .error .invalid_range else copyLoop src (last - first) first d_first dst

/-- The loop of `std::copy` / `std::move` when source and destination lie in
the same buffer: each step reads the buffer as the earlier steps left it. -/
def copyWithinLoop {α : Type} : Nat → Nat → Nat → ArrayPtr α → Except Fault (ArrayPtr α)
  | 0, _, _, buf => .ok buf
  | n + 1, first, d_first, buf =>
    match loadAt buf first with
    | .ok x =>
      match storeAt buf d_first x with
      | .ok b => copyWithinLoop n (first + 1) (d_first + 1) b
      | .error e => .error e
    | .error e => .error e

/-- Algorithm `std::copy(first, last, d_first)` inside one buffer. -/
def std_copy_within {α : Type} (buf : ArrayPtr α) (first last d_first : Nat) :
    Except Fault (ArrayPtr α) :=
  if last < first then .error .invalid_range else copyWithinLoop (last - first) first d_first buf

/-- The loop of `std::copy_backward` / `std::move_backward` inside one buffer:
`*(--d_last) = *(--last)`, `n` times. -/
def copyBackwardLoop {α : Type} : Nat → Nat → Nat → ArrayPtr α → Except Fault (ArrayPtr α)
  | 0, _, _, buf => .ok buf
  | n + 1, last, d_last, buf =>
    match loadAt buf (last - 1) with
    | .ok x =>
      match storeAt buf (d_last - 1) x with
      | .ok b => copyBackwardLoop n (last - 1) (d_last - 1) b
      | .error e => .error e
    | .error e => .error e

/-- Algorithm `std::copy_backward(first, last, d_last)` inside one buffer. -/
def std_copy_backward {α : Type} (buf : ArrayPtr α) (first last d_last : Nat) :
    Except Fault (ArrayPtr α) :=
  if last < first then .error .invalid_range else copyBackwardLoop (last - first) last d_last buf

/-! ## The vector -/

/-- Class `ReserveProxyObj`. -/
structure ReserveProxyObj where
  new_capacity_ : Nat := 0
  deriving DecidableEq, Repr

/-- Method `ReserveProxyObj::GetCapacity`. -/
def ReserveProxyObj.GetCapacity (r : ReserveProxyObj) : Nat := r.new_capacity_

/-- The free function `Reserve(capacity_to_reserve)`. -/
def Reserve (capacity_to_reserve : Nat) : ReserveProxyObj := ⟨capacity_to_reserve⟩

/-- Class `SimpleVector<Type>`: its three data members. -/
structure SimpleVector (α : Type) where
  items_ : ArrayPtr α
  size_ : Nat
  capacity_ : Nat
  deriving DecidableEq, Repr

namespace SimpleVector

variable {α : Type}

/-- Method `GetSize`. -/
def GetSize (v : SimpleVector α) : Nat := v.size_

/-- Method `GetCapacity`. -/
def GetCapacity (v : SimpleVector α) : Nat := v.capacity_

/-- Method `IsEmpty`. -/
def IsEmpty (v : SimpleVector α) : Bool := v.size_ == 0

/-- Unchecked `operator[]`: `items_[index]`. -/
def index (v : SimpleVector α) (i : Nat) : Except Fault α := loadAt v.items_ i

/-- Method `Resize(new_size)`. -/
def Resize [Inhabited α] (heap : Nat → α) (v : SimpleVector α) (new_size : Nat) :
    Except Fault (SimpleVector α) :=
  if new_size < v.size_ then
    .ok { v with size_ := new_size }
  else if new_size > v.capacity_ then
    match std_copy v.items_ 0 v.size_ (allocate heap new_size) 0 with
    | .ok resize_array => .ok { items_ := resize_array, size_ := new_size, capacity_ := new_size }
    | .error e => .error e
  else
    match std_generate v.items_ v.size_ (v.size_ + new_size) (fun _ => default) with
    | .ok buf => .ok { v with items_ := buf }
    | .error e => .error e

/-- Whether `Resize(new_size)` takes the branch that replaces the buffer
(lines 174-181).  At the end of that branch the local `resize_array`, which
holds the old block after `items_.swap(resize_array)`, is destroyed: the old
block is released. -/
def Resize_reallocates (v : SimpleVector α) (new_size : Nat) : Bool :=
  !decide (new_size < v.size_) && decide (new_size > v.capacity_)

/-- Method `PushBack(item)`.  The reference `item` is read when the element is
assigned: in the second branch after `Resize(size_ + 1)`. -/
def PushBack [Inhabited α] (heap stale : Nat → α) (v : SimpleVector α) (item : ArgRef α) :
    Except Fault (SimpleVector α) :=
  if v.size_ < v.capacity_ then
    match readArg stale v.items_ false item with
    | .ok x =>
      match storeAt v.items_ v.size_ x with
      | .ok buf => .ok { v with items_ := buf, size_ := v.size_ + 1 }
      | .error e => .error e
    | .error e => .error e
  else
    match Resize heap v (v.size_ + 1) with
    | .ok w =>
      let released := Resize_reallocates v (v.size_ + 1)
      match readArg stale (if released then v.items_ else w.items_) released item with
      | .ok x =>
        match storeAt w.items_ (w.size_ - 1) x with
        | .ok buf => .ok { w with items_ := buf }
        | .error e => .error e
      | .error e => .error e
    | .error e => .error e

/-- Method `Reserve(new_capacity)`. -/
def Reserve (heap : Nat → α) (v : SimpleVector α) (new_capacity : Nat) :
    Except Fault (SimpleVector α) :=
  if new_capacity > v.capacity_ then
    match std_copy v.items_ 0 v.size_ (allocate heap new_capacity) 0 with
    | .ok new_items => .ok { v with items_ := new_items, capacity_ := new_capacity }
    | .error e => .error e
  else
    .ok v

/-- Method `Insert(pos, value)`; `pos` is the offset of the iterator from
`begin()`, and the result carries the offset of the returned iterator.  The
reference `value` is read at `*it = value`, after the growth and after
`copy_backward`.  The third component of `grown` tells whether the growth
released the block the vector had at the call. -/
def Insert [Inhabited α] (heap stale : Nat → α) (v : SimpleVector α) (pos : Nat)
    (value : ArgRef α) : Except Fault (SimpleVector α × Nat) :=
  if pos ≤ v.size_ ∧ pos ≥ 0 then
    let grown : Except Fault (SimpleVector α × Nat × Bool) :=
      if v.size_ = v.capacity_ then
        let dist := pos - 0
        let new_capacity := if v.capacity_ = 0 then 1 else v.capacity_ * 2
        let size := v.size_
        match Resize heap v new_capacity with
        | .ok w => .ok ({ w with size_ := size, capacity_ := new_capacity }, 0 + dist,
            Resize_reallocates v new_capacity)
        | .error e => .error e
      else
        .ok (v, pos, false)
    match grown with
    | .ok (w, it, released) =>
      match std_copy_backward w.items_ it w.size_ (w.size_ + 1) with
      | .ok shifted =>
        match readArg stale (if released then v.items_ else shifted) released value with
        | .ok x =>
          match storeAt shifted it x with
          | .ok buf => .ok ({ w with items_ := buf, size_ := w.size_ + 1 }, it)
          | .error e => .error e
        | .error e => .error e
      | .error e => .error e
    | .error e => .error e
  else
    .error .assert_failed

/-- Method `PopBack`. -/
def PopBack (v : SimpleVector α) : Except Fault (SimpleVector α) :=
  if !v.IsEmpty then .ok { v with size_ := v.size_ - 1 } else .error .assert_failed

/-- Method `Erase(pos)`; `pos` is the offset of the iterator from `begin()`,
and the result carries the offset of the returned iterator. -/
def Erase (v : SimpleVector α) (pos : Nat) : Except Fault (SimpleVector α × Nat) :=
  if pos ≤ v.size_ ∧ pos ≥ 0 then
    if v.size_ > 0 then
      match std_copy_within v.items_ (pos + 1) v.size_ (0 + (pos - 0)) with
      | .ok buf => .ok ({ v with items_ := buf, size_ := v.size_ - 1 }, 0 + (pos - 0))
      | .error e => .error e
    else
      .ok (v, 0 + (pos - 0))
  else
    .error .assert_failed

/-- Method `Clear`. -/
def Clear (v : SimpleVector α) : SimpleVector α := { v with size_ := 0 }

/-- Method `At(index)`. -/
def At (v : SimpleVector α) (i : Nat) : Except Fault α :=
  if i ≥ v.size_ then .error .out_of_range else loadAt v.items_ i

/-- Method `swap(other)`: the pair is `(*this, other)` after the call. -/
def swap (v other : SimpleVector α) : SimpleVector α × SimpleVector α :=
  ({ items_ := other.items_, size_ := other.size_, capacity_ := other.capacity_ },
   { items_ := v.items_, size_ := v.size_, capacity_ := v.capacity_ })

/-! ### Constructors -/

/-- The default constructor `SimpleVector()`. -/
def ctor_default : SimpleVector α := { items_ := [], size_ := 0, capacity_ := 0 }

/-- The constructor `SimpleVector(size_t size)`. -/
def ctor_size [Inhabited α] (heap : Nat → α) (size : Nat) : Except Fault (SimpleVector α) :=
  match std_fill (allocate heap size) 0 size default with
  | .ok buf => .ok { items_ := buf, size_ := size, capacity_ := size }
  | .error e => .error e

/-- The constructor `SimpleVector(size_t size, const Type& value)`. -/
def ctor_size_value (heap : Nat → α) (size : Nat) (value : α) : Except Fault (SimpleVector α) :=
  match std_fill (allocate heap size) 0 size value with
  | .ok buf => .ok { items_ := buf, size_ := size, capacity_ := size }
  | .error e => .error e

/-- The constructor `SimpleVector(std::initializer_list<Type> init)`. -/
def ctor_init_list (heap : Nat → α) (init : List α) : Except Fault (SimpleVector α) :=
  match std_copy init 0 init.length (allocate heap init.length) 0 with
  | .ok buf => .ok { items_ := buf, size_ := init.length, capacity_ := init.length }
  | .error e => .error e

/-- The constructor `SimpleVector(ReserveProxyObj res)`. -/
def ctor_reserve (heap : Nat → α) (res : ReserveProxyObj) : SimpleVector α :=
  { items_ := allocate heap res.GetCapacity, size_ := 0, capacity_ := res.GetCapacity }

/-- The copy constructor `SimpleVector(const SimpleVector& other)`. -/
def ctor_copy (heap : Nat → α) (other : SimpleVector α) : Except Fault (SimpleVector α) :=
  match std_copy other.items_ 0 other.size_ (allocate heap other.GetSize) 0 with
  | .ok buf => .ok { items_ := buf, size_ := other.GetSize, capacity_ := other.GetCapacity }
  | .error e => .error e

/-- Modelled from the spec: the buffer left in an `ArrayPtr` that was moved
from (the move operations of array_ptr.h are not part of the sources).  The new
owner "takes ownership of the buffer" and the source "becomes the empty state",
so it owns no storage. -/
def moved_from : ArrayPtr α := []

/-- The move constructor `SimpleVector(SimpleVector&& other)`: the pair is the
new vector and `other` after the call. -/
def ctor_move (other : SimpleVector α) : SimpleVector α × SimpleVector α :=
  ({ items_ := other.items_, size_ := other.size_, capacity_ := other.capacity_ },
   { items_ := moved_from, size_ := 0, capacity_ := 0 })

/-! ### Assignment

`same_object` tells whether `&rhs == this`; when it is, `rhs` is `*this`. -/

/-- Copy assignment `operator=(const SimpleVector& rhs)`: `*this` after the
call (`rhs` is not modified). -/
def assign_copy (heap : Nat → α) (v rhs : SimpleVector α) (same_object : Bool) :
    Except Fault (SimpleVector α) :=
  if !same_object then
    match ctor_copy heap rhs with
    | .ok rhs_copy => .ok (swap v rhs_copy).1
    | .error e => .error e
  else
    .ok v

/-- Move assignment `operator=(SimpleVector&& rhs)`: the pair is `(*this, rhs)`
after the call; on self-assignment both components are the one object. -/
def assign_move (v rhs : SimpleVector α) (same_object : Bool) :
    SimpleVector α × SimpleVector α :=
  if !same_object then
    ({ items_ := rhs.items_, size_ := rhs.size_, capacity_ := rhs.capacity_ },
     { items_ := moved_from, size_ := 0, capacity_ := 0 })
  else
    (v, v)

/-! ### Invariants and observations -/

/-- The data-model invariants: `size <= capacity`, and the buffer holds storage
for exactly `capacity` elements. -/
def Inv (v : SimpleVector α) : Prop :=
  v.size_ ≤ v.capacity_ ∧ v.items_.length = v.capacity_

instance (v : SimpleVector α) : Decidable (Inv v) := by
  unfold Inv; infer_instance

/-- The first data-model invariant alone: `size <= capacity`. -/
def size_le_capacity (v : SimpleVector α) : Prop := v.size_ ≤ v.capacity_

instance (v : SimpleVector α) : Decidable (size_le_capacity v) := by
  unfold size_le_capacity; infer_instance

/-- The live elements: the cells at positions `[0, size)`, i.e. the range
`[begin(), end())`. -/
def live (v : SimpleVector α) : List α := v.items_.take v.size_

/-- The capacity `Insert` leaves behind: doubled (or `1`) when the vector was
full, unchanged otherwise. -/
def capacity_after_insert (v : SimpleVector α) : Nat :=
  if v.size_ = v.capacity_ then (if v.capacity_ = 0 then 1 else v.capacity_ * 2)
  else v.capacity_

/-- The capacity `PushBack` leaves behind: unchanged when there was room, the
new size otherwise. -/
def capacity_after_push (v : SimpleVector α) : Nat :=
  if v.size_ < v.capacity_ then v.capacity_ else v.size_ + 1

/-- The storage covers the live range: `size` cells of the buffer exist.  The
data-model invariants imply it. -/
def live_in_buffer (v : SimpleVector α) : Prop := v.size_ ≤ v.items_.length

instance (v : SimpleVector α) : Decidable (live_in_buffer v) := by
  unfold live_in_buffer; infer_instance

/-- A sequence of calls `v.PushBack(x)` for the values of `xs`, in order, each
value held by an object outside the vector. -/
def PushBack_all [Inhabited α] (heap stale : Nat → α) :
    SimpleVector α → List α → Except Fault (SimpleVector α)
  | v, [] => .ok v
  | v, x :: xs =>
    match PushBack heap stale v (.outside x) with
    | .ok w => PushBack_all heap stale w xs
    | .error e => .error e

/-- The arguments for which `PushBack` stores the value they held at the call:
objects outside the vector, and cells of the vector when there is room
(`size < capacity`, no reallocation). -/
def PushBack_arg_safe (v : SimpleVector α) : ArgRef α → Prop
  | .outside _ => True
  | .cell _ => v.size_ < v.capacity_

/-- The arguments for which `Insert` at position `pos` stores the value they
held at the call: objects outside the vector, and, when there is room
(`size < capacity`), cells that the shift of `[pos, size)` does not overwrite:
those at a position `<= pos` or `> size`. -/
def Insert_arg_safe (v : SimpleVector α) (pos : Nat) : ArgRef α → Prop
  | .outside _ => True
  | .cell j => v.size_ < v.capacity_ ∧ (j ≤ pos ∨ v.size_ < j)

end SimpleVector

/-! ## Relational operators -/

/-- The loop of `std::equal(first1, last1, first2)`: it stops at the first pair
of cells that are not `==`. -/
def equalLoop {α : Type} [BEq α] (a b : ArrayPtr α) : Nat → Nat → Nat → Except Fault Bool
  | 0, _, _ => .ok true
  | n + 1, first1, first2 =>
    match loadAt a first1 with
    | .ok x =>
      match loadAt b first2 with
      | .ok y => if !(x == y) then .ok false else equalLoop a b n (first1 + 1) (first2 + 1)
      | .error e => .error e
    | .error e => .error e

/-- Algorithm `std::equal(first1, last1, first2)` on two buffers. -/
def std_equal {α : Type} [BEq α] (a : ArrayPtr α) (first1 last1 : Nat) (b : ArrayPtr α)
    (first2 : Nat) : Except Fault Bool :=
  if last1 < first1 then .error .invalid_range else equalLoop a b (last1 - first1) first1 first2

/-- The loop of `std::lexicographical_compare`, with `n1` and `n2` cells left
in the two ranges. -/
def lexLoop {α : Type} [LT α] [DecidableRel (@LT.lt α _)] (a b : ArrayPtr α) :
    Nat → Nat → Nat → Nat → Except Fault Bool
  | 0, n2, _, _ => .ok (n2 != 0)
  | _ + 1, 0, _, _ => .ok false
  | n1 + 1, n2 + 1, first1, first2 =>
    match loadAt a first1 with
    | .ok x =>
      match loadAt b first2 with
      | .ok y =>
        if x < y then .ok true
        else if y < x then .ok false
        else lexLoop a b n1 n2 (first1 + 1) (first2 + 1)
      | .error e => .error e
    | .error e => .error e

/-- Algorithm `std::lexicographical_compare(first1, last1, first2, last2)` on
two buffers. -/
def std_lexicographical_compare {α : Type} [LT α] [DecidableRel (@LT.lt α _)]
    (a : ArrayPtr α) (first1 last1 : Nat) (b : ArrayPtr α) (first2 last2 : Nat) :
    Except Fault Bool :=
  if last1 < first1 ∨ last2 < first2 then .error .invalid_range
  else lexLoop a b (last1 - first1) (last2 - first2) first1 first2

/-- Negation of a comparison result. -/
def negate (r : Except Fault Bool) : Except Fault Bool :=
  match r with
  | .ok b => .ok (!b)
  | .error e => .error e

/-- Function `operator==` on vectors. -/
def operator_eq {α : Type} [BEq α] (lhs rhs : SimpleVector α) : Except Fault Bool :=
  if lhs.GetSize = rhs.GetSize then std_equal lhs.items_ 0 lhs.size_ rhs.items_ 0
  else .ok false

/-- Function `operator!=` on vectors. -/
def operator_ne {α : Type} [BEq α] (lhs rhs : SimpleVector α) : Except Fault Bool :=
  negate (operator_eq lhs rhs)

/-- Function `operator<` on vectors. -/
def operator_lt {α : Type} [LT α] [DecidableRel (@LT.lt α _)] (lhs rhs : SimpleVector α) :
    Except Fault Bool :=
  std_lexicographical_compare lhs.items_ 0 lhs.size_ rhs.items_ 0 rhs.size_

/-- Function `operator<=` on vectors. -/
def operator_le {α : Type} [LT α] [DecidableRel (@LT.lt α _)] (lhs rhs : SimpleVector α) :
    Except Fault Bool :=
  negate (operator_lt rhs lhs)

/-- Function `operator>` on vectors. -/
def operator_gt {α : Type} [LT α] [DecidableRel (@LT.lt α _)] (lhs rhs : SimpleVector α) :
    Except Fault Bool :=
  operator_lt rhs lhs

/-- Function `operator>=` on vectors. -/
def operator_ge {α : Type} [LT α] [DecidableRel (@LT.lt α _)] (lhs rhs : SimpleVector α) :
    Except Fault Bool :=
  negate (operator_lt lhs rhs)

/-- The lexicographic comparison of two lists, the value that
`std::lexicographical_compare` computes on two ranges. -/
def lexLess {α : Type} [LT α] [DecidableRel (@LT.lt α _)] : List α → List α → Bool
  | [], [] => false
  | [], _ :: _ => true
  | _ :: _, [] => false
  | x :: xs, y :: ys => if x < y then true else if y < x then false else lexLess xs ys

end SimpleVec

/-! ## Lemmas on the buffer and the algorithms -/

namespace SimpleVec

variable {α : Type}

theorem loadAt_eq (buf : ArrayPtr α) (i : Nat) (x : α) (h : buf[i]? = some x) :
    loadAt buf i = .ok x := by
  simp [loadAt, h]

theorem storeAt_eq (buf : ArrayPtr α) (i : Nat) (x : α) (h : i < buf.length) :
    storeAt buf i x = .ok (buf.set i x) := by
  simp [storeAt, h]

theorem length_allocate (heap : Nat → α) (n : Nat) : (allocate heap n).length = n := by
  simp [allocate]

theorem allocate_cell (heap : Nat → α) (n i : Nat) :
    (allocate heap n)[i]? = if i < n then some (heap i) else none := by
  unfold allocate
  by_cases h : i < n
  · simp [h, List.getElem?_range h]
  · have h2 : n ≤ i := by omega
    simp [h, List.getElem?_eq_none, h2]

/-- The fill loop over cells that all lie in the buffer succeeds and writes
exactly these cells. -/
theorem fillLoop_spec (g : Unit → α) :
    ∀ (n first : Nat) (buf : ArrayPtr α), first + n ≤ buf.length →
      ∃ b, fillLoop g n first buf = .ok b ∧ b.length = buf.length ∧
        ∀ i, b[i]? = if first ≤ i ∧ i < first + n then some (g ()) else buf[i]? := by
  intro n
  induction n with
  | zero =>
    intro first buf _
    refine ⟨buf, rfl, rfl, fun i => ?_⟩
    have : ¬ (first ≤ i ∧ i < first + 0) := by omega
    rw [if_neg this]
  | succ n ih =>
    intro first buf h
    have hlt : first < buf.length := by omega
    obtain ⟨b, hb, hlen, hget⟩ := ih (first + 1) (buf.set first (g ()))
      (by rw [List.length_set]; omega)
    refine ⟨b, ?_, ?_, fun i => ?_⟩
    · simp only [fillLoop, storeAt_eq buf first (g ()) hlt, hb]
    · rw [hlen, List.length_set]
    · rw [hget i, List.getElem?_set]
      by_cases h1 : first = i
      · subst h1
        have c1 : ¬ (first + 1 ≤ first ∧ first < first + 1 + n) := by omega
        have c2 : first ≤ first ∧ first < first + (n + 1) := by omega
        simp [c1, c2, hlt]
      · by_cases h2 : first + 1 ≤ i ∧ i < first + 1 + n
        · have c2 : first ≤ i ∧ i < first + (n + 1) := by omega
          simp [h2, c2]
        · have c2 : ¬ (first ≤ i ∧ i < first + (n + 1)) := by omega
          simp [h1, h2, c2]

/-- The fill loop faults as soon as one of its cells lies outside the buffer. -/
theorem fillLoop_fault (g : Unit → α) :
    ∀ (n first : Nat) (buf : ArrayPtr α), buf.length < first + (n + 1) →
      fillLoop g (n + 1) first buf = .error .out_of_bounds := by
  intro n
  induction n with
  | zero =>
    intro first buf h
    have hlt : ¬ first < buf.length := by omega
    simp [fillLoop, storeAt, hlt]
  | succ n ih =>
    intro first buf h
    by_cases hlt : first < buf.length
    · have := ih (first + 1) (buf.set first (g ())) (by rw [List.length_set]; omega)
      rw [fillLoop, storeAt_eq buf first (g ()) hlt]
      exact this
    · simp [fillLoop, storeAt, hlt]

/-- Copying between two buffers, all cells in range: the destination receives
the source cells and keeps its other cells. -/
theorem copyLoop_spec (src : ArrayPtr α) :
    ∀ (n first d : Nat) (dst : ArrayPtr α), first + n ≤ src.length → d + n ≤ dst.length →
      ∃ b, copyLoop src n first d dst = .ok b ∧ b.length = dst.length ∧
        ∀ i, b[i]? = if d ≤ i ∧ i < d + n then src[first + (i - d)]? else dst[i]? := by
  intro n
  induction n with
  | zero =>
    intro first d dst _ _
    refine ⟨dst, rfl, rfl, fun i => ?_⟩
    have : ¬ (d ≤ i ∧ i < d + 0) := by omega
    rw [if_neg this]
  | succ n ih =>
    intro first d dst hs hd
    have hf : first < src.length := by omega
    have hdl : d < dst.length := by omega
    obtain ⟨b, hb, hlen, hget⟩ := ih (first + 1) (d + 1) (dst.set d src[first])
      (by omega) (by rw [List.length_set]; omega)
    refine ⟨b, ?_, ?_, fun i => ?_⟩
    · simp only [copyLoop, loadAt_eq src first src[first] (List.getElem?_eq_getElem hf),
        storeAt_eq dst d src[first] hdl, hb]
    · rw [hlen, List.length_set]
    · rw [hget i, List.getElem?_set]
      by_cases h1 : d = i
      · subst h1
        have c1 : ¬ (d + 1 ≤ d ∧ d < d + 1 + n) := by omega
        have c2 : d ≤ d ∧ d < d + (n + 1) := by omega
        simp [c1, c2, hdl, List.getElem?_eq_getElem hf]
      · by_cases h2 : d + 1 ≤ i ∧ i < d + 1 + n
        · have c2 : d ≤ i ∧ i < d + (n + 1) := by omega
          have e : first + 1 + (i - (d + 1)) = first + (i - d) := by omega
          simp [h2, c2, e]
        · have c2 : ¬ (d ≤ i ∧ i < d + (n + 1)) := by omega
          simp [h1, h2, c2]

/-- Copying forward inside one buffer to a destination that does not lie
after the source: the destination cells receive the original source cells. -/
theorem copyWithinLoop_spec :
    ∀ (n first d : Nat) (buf : ArrayPtr α), first + n ≤ buf.length → d ≤ first →
      ∃ b, copyWithinLoop n first d buf = .ok b ∧ b.length = buf.length ∧
        ∀ i, b[i]? = if d ≤ i ∧ i < d + n then buf[first + (i - d)]? else buf[i]? := by
  intro n
  induction n with
  | zero =>
    intro first d buf _ _
    refine ⟨buf, rfl, rfl, fun i => ?_⟩
    have : ¬ (d ≤ i ∧ i < d + 0) := by omega
    rw [if_neg this]
  | succ n ih =>
    intro first d buf hs hd
    have hf : first < buf.length := by omega
    have hdl : d < buf.length := by omega
    obtain ⟨b, hb, hlen, hget⟩ := ih (first + 1) (d + 1) (buf.set d buf[first])
      (by rw [List.length_set]; omega) (by omega)
    refine ⟨b, ?_, ?_, fun i => ?_⟩
    · simp only [copyWithinLoop, loadAt_eq buf first buf[first] (List.getElem?_eq_getElem hf),
        storeAt_eq buf d buf[first] hdl, hb]
    · rw [hlen, List.length_set]
    · rw [hget i]
      by_cases h1 : d = i
      · subst h1
        have c1 : ¬ (d + 1 ≤ d ∧ d < d + 1 + n) := by omega
        have c2 : d ≤ d ∧ d < d + (n + 1) := by omega
        simp [c1, c2, hdl, List.getElem?_eq_getElem hf]
      · by_cases h2 : d + 1 ≤ i ∧ i < d + 1 + n
        · have c2 : d ≤ i ∧ i < d + (n + 1) := by omega
          have e : first + 1 + (i - (d + 1)) = first + (i - d) := by omega
          have ne : d ≠ first + (i - d) := by omega
          rw [if_pos h2, if_pos c2, e, List.getElem?_set_ne ne]
        · have c2 : ¬ (d ≤ i ∧ i < d + (n + 1)) := by omega
          rw [if_neg h2, if_neg c2, List.getElem?_set_ne h1]

/-- Copying backward inside one buffer to a destination that does not lie
before the source: the destination cells receive the original source cells. -/
theorem copyBackwardLoop_spec :
    ∀ (n last d_last : Nat) (buf : ArrayPtr α), n ≤ last → last ≤ d_last →
      d_last ≤ buf.length →
      ∃ b, copyBackwardLoop n last d_last buf = .ok b ∧ b.length = buf.length ∧
        ∀ i, b[i]? = if d_last - n ≤ i ∧ i < d_last then buf[i - (d_last - last)]?
          else buf[i]? := by
  intro n
  induction n with
  | zero =>
    intro last d_last buf _ _ _
    refine ⟨buf, rfl, rfl, fun i => ?_⟩
    have : ¬ (d_last - 0 ≤ i ∧ i < d_last) := by omega
    rw [if_neg this]
  | succ n ih =>
    intro last d_last buf hn hl hd
    have hf : last - 1 < buf.length := by omega
    have hdl : d_last - 1 < buf.length := by omega
    obtain ⟨b, hb, hlen, hget⟩ := ih (last - 1) (d_last - 1) (buf.set (d_last - 1) buf[last - 1])
      (by omega) (by omega) (by rw [List.length_set]; omega)
    refine ⟨b, ?_, ?_, fun i => ?_⟩
    · simp only [copyBackwardLoop,
        loadAt_eq buf (last - 1) buf[last - 1] (List.getElem?_eq_getElem hf),
        storeAt_eq buf (d_last - 1) buf[last - 1] hdl, hb]
    · rw [hlen, List.length_set]
    · rw [hget i]
      by_cases h1 : d_last - 1 = i
      · subst h1
        have c1 : ¬ (d_last - 1 - n ≤ d_last - 1 ∧ d_last - 1 < d_last - 1) := by omega
        have c2 : d_last - (n + 1) ≤ d_last - 1 ∧ d_last - 1 < d_last := by omega
        have e : d_last - 1 - (d_last - last) = last - 1 := by omega
        simp [c2, hdl, e, List.getElem?_eq_getElem hf]
      · by_cases h2 : d_last - 1 - n ≤ i ∧ i < d_last - 1
        · have c2 : d_last - (n + 1) ≤ i ∧ i < d_last := by omega
          have e : i - (d_last - 1 - (last - 1)) = i - (d_last - last) := by omega
          have ne : d_last - 1 ≠ i - (d_last - last) := by omega
          rw [if_pos h2, if_pos c2, e, List.getElem?_set_ne ne]
        · have c2 : ¬ (d_last - (n + 1) ≤ i ∧ i < d_last) := by omega
          rw [if_neg h2, if_neg c2, List.getElem?_set_ne h1]

/-- An argument that is bound to an existing object can be read, whether or
not the block it lies in has been released. -/
theorem readArg_valid (stale : Nat → α) (block : ArrayPtr α) (released : Bool)
    (item : ArgRef α) (h : item.valid block) :
    ∃ y, readArg stale block released item = .ok y := by
  cases item with
  | outside x => exact ⟨x, rfl⟩
  | cell j =>
    have hj : j < block.length := h
    cases released
    · exact ⟨block[j], loadAt_eq block j block[j] (List.getElem?_eq_getElem hj)⟩
    · exact ⟨stale j, by simp [readArg, hj]⟩

/-- Read from a block that holds what it held at the call and has not been
released, the argument gives the value it had at the call. -/
theorem readArg_at_call (stale : Nat → α) (block : ArrayPtr α) (item : ArgRef α) (x : α)
    (h : item.value_at_call block = some x) : readArg stale block false item = .ok x := by
  cases item with
  | outside y =>
    have e : y = x := Option.some.inj h
    rw [← e]
    rfl
  | cell j =>
    have hj : block[j]? = some x := h
    simp [readArg, loadAt, hj]

/-- An argument that holds a value at the call is bound to an existing
object. -/
theorem valid_of_value_at_call (buf : ArrayPtr α) (item : ArgRef α) (x : α)
    (h : item.value_at_call buf = some x) : item.valid buf := by
  cases item with
  | outside y => exact True.intro
  | cell j =>
    have hj : buf[j]? = some x := h
    obtain ⟨hlt, _⟩ := List.getElem?_eq_some.mp hj
    exact hlt

/-- An argument outside the vector gives its value whenever it is read. -/
theorem readArg_outside (stale : Nat → α) (block : ArrayPtr α) (released : Bool) (x : α) :
    readArg stale block released (.outside x) = .ok x := rfl

namespace SimpleVector

theorem length_live (v : SimpleVector α) (h : v.size_ ≤ v.items_.length) :
    (live v).length = v.size_ := by
  simp [live, h]

theorem live_cell (v : SimpleVector α) (i : Nat) :
    (live v)[i]? = if i < v.size_ then v.items_[i]? else none := by
  simp [live, List.getElem?_take]

/-- A prefix of a buffer is determined by its cells. -/
theorem take_eq_of_cells (buf l : List α) (n : Nat) (hl : l.length = n)
    (h : ∀ i, i < n → buf[i]? = l[i]?) : buf.take n = l := by
  apply List.ext_getElem?
  intro i
  rw [List.getElem?_take]
  by_cases hi : i < n
  · rw [if_pos hi, h i hi]
  · rw [if_neg hi, List.getElem?_eq_none (by omega)]

/-- Copying the live range into freshly allocated storage of `k >= size`
cells: the live cells arrive unchanged, the other cells keep what the fresh
storage held. -/
theorem copy_into_fresh (heap : Nat → α) (v : SimpleVector α) (k : Nat)
    (hlen : v.size_ ≤ v.items_.length) (hk : v.size_ ≤ k) :
    ∃ buf, std_copy v.items_ 0 v.size_ (allocate heap k) 0 = .ok buf ∧ buf.length = k ∧
      ∀ i, buf[i]? = if i < v.size_ then v.items_[i]? else
        if i < k then some (heap i) else none := by
  obtain ⟨b, hb, hl, hget⟩ := copyLoop_spec v.items_ v.size_ 0 0 (allocate heap k)
    (by omega) (by rw [length_allocate]; omega)
  refine ⟨b, ?_, ?_, fun i => ?_⟩
  · simp only [std_copy, Nat.not_lt_zero, if_false, Nat.sub_zero, hb]
  · rw [hl, length_allocate]
  · rw [hget i, allocate_cell]
    by_cases h : i < v.size_
    · have c : 0 ≤ i ∧ i < 0 + v.size_ := by omega
      simp [h, c]
    · have c : ¬ (0 ≤ i ∧ i < 0 + v.size_) := by omega
      rw [if_neg c, if_neg h]

/-- The reallocating branch of `Resize`. -/
theorem Resize_grow [Inhabited α] (heap : Nat → α) (v : SimpleVector α) (k : Nat)
    (hinv : Inv v) (hk : v.capacity_ < k) :
    ∃ buf, Resize heap v k = .ok { items_ := buf, size_ := k, capacity_ := k } ∧
      buf.length = k ∧
      ∀ i, buf[i]? = if i < v.size_ then v.items_[i]? else
        if i < k then some (heap i) else none := by
  obtain ⟨h1, h2⟩ := hinv
  obtain ⟨buf, hb, hl, hget⟩ := copy_into_fresh heap v k (by omega) (by omega)
  refine ⟨buf, ?_, hl, hget⟩
  have c1 : ¬ k < v.size_ := by omega
  simp only [Resize, if_neg c1, gt_iff_lt, if_pos hk, hb]

/-- The shifting step of `Insert`, `copy_backward(it, end(), end() + 1)`, in a
buffer with room for one more element, and the store `*it = x` after it. -/
theorem shift_right_store (buf0 : ArrayPtr α) (p n : Nat) (hp : p ≤ n)
    (hn : n + 1 ≤ buf0.length) :
    ∃ shifted, std_copy_backward buf0 p n (n + 1) = .ok shifted ∧
      shifted.length = buf0.length ∧
      (∀ i, shifted[i]? = if p < i ∧ i ≤ n then buf0[i - 1]? else buf0[i]?) ∧
      ∀ x, storeAt shifted p x = .ok (shifted.set p x) ∧
        ∀ i, (shifted.set p x)[i]? = if i = p then some x else
          if p < i ∧ i ≤ n then buf0[i - 1]? else buf0[i]? := by
  obtain ⟨b, hb, hl, hget⟩ := copyBackwardLoop_spec (n - p) n (n + 1) buf0
    (by omega) (by omega) hn
  have hpl : p < b.length := by omega
  have hsh : ∀ i, b[i]? = if p < i ∧ i ≤ n then buf0[i - 1]? else buf0[i]? := by
    intro i
    rw [hget i]
    by_cases h2 : p < i ∧ i ≤ n
    · have c : n + 1 - (n - p) ≤ i ∧ i < n + 1 := by omega
      have e : i - (n + 1 - n) = i - 1 := by omega
      rw [if_pos h2, if_pos c, e]
    · have c : ¬ (n + 1 - (n - p) ≤ i ∧ i < n + 1) := by omega
      rw [if_neg h2, if_neg c]
  refine ⟨b, ?_, hl, hsh, fun x => ⟨storeAt_eq b p x hpl, fun i => ?_⟩⟩
  · have c : ¬ n < p := by omega
    simp only [std_copy_backward, if_neg c, hb]
  · by_cases h1 : i = p
    · subst h1
      simp [hpl]
    · have ne : p ≠ i := fun h => h1 h.symm
      rw [List.getElem?_set_ne ne, hsh i, if_neg h1]

/-- What `Insert` does on a vector satisfying the invariants, at a position in
`[begin(), end()]`, with an argument that exists: `y` is the element stored at
the position, and it is the value the argument held at the call when the
argument is safe. -/
theorem Insert_spec [Inhabited α] (heap stale : Nat → α) (v : SimpleVector α) (p : Nat)
    (item : ArgRef α) (hinv : Inv v) (hp : p ≤ v.size_) (hval : item.valid v.items_) :
    ∃ buf y, Insert heap stale v p item =
        .ok ({ items_ := buf, size_ := v.size_ + 1, capacity_ := capacity_after_insert v }, p) ∧
      buf.length = capacity_after_insert v ∧ v.size_ + 1 ≤ capacity_after_insert v ∧
      (∀ i, i ≤ v.size_ → buf[i]? = if i = p then some y else
        if p < i then v.items_[i - 1]? else v.items_[i]?) ∧
      (∀ x, Insert_arg_safe v p item → item.value_at_call v.items_ = some x → y = x) := by
  obtain ⟨h1, h2⟩ := hinv
  have hpre : p ≤ v.size_ ∧ p ≥ 0 := ⟨hp, Nat.zero_le p⟩
  by_cases hfull : v.size_ = v.capacity_
  · have hcap : capacity_after_insert v = (if v.capacity_ = 0 then 1 else v.capacity_ * 2) := by
      simp [capacity_after_insert, hfull]
    have hk : v.capacity_ < (if v.capacity_ = 0 then 1 else v.capacity_ * 2) := by
      split <;> omega
    have hrel : Resize_reallocates v (if v.capacity_ = 0 then 1 else v.capacity_ * 2) = true := by
      have c1 : ¬ (if v.capacity_ = 0 then 1 else v.capacity_ * 2) < v.size_ := by omega
      simp [Resize_reallocates, c1, hk]
    obtain ⟨buf0, hb0, hl0, hget0⟩ := Resize_grow heap v _ ⟨h1, h2⟩ hk
    obtain ⟨shifted, hs, hsl, _, hst⟩ := shift_right_store buf0 p v.size_ hp (by omega)
    obtain ⟨y, hy⟩ := readArg_valid stale v.items_ true item hval
    obtain ⟨hstore, hget⟩ := hst y
    refine ⟨shifted.set p y, y, ?_, ?_, ?_, fun i hi => ?_, fun x hsafe hx => ?_⟩
    · simp only [Insert, if_pos hpre, if_pos hfull, hb0, Nat.sub_zero, Nat.zero_add, hs, hrel,
        if_true, hy, hstore, hcap]
    · rw [List.length_set, hsl, hl0, hcap]
    · rw [hcap]; omega
    · rw [hget i]
      by_cases c1 : i = p
      · rw [if_pos c1, if_pos c1]
      · rw [if_neg c1, if_neg c1]
        by_cases c2 : p < i
        · have c3 : p < i ∧ i ≤ v.size_ := ⟨c2, hi⟩
          have c4 : i - 1 < v.size_ := by omega
          rw [if_pos c3, if_pos c2, hget0, if_pos c4]
        · have c3 : ¬ (p < i ∧ i ≤ v.size_) := fun h => c2 h.1
          have c4 : i < v.size_ := by omega
          rw [if_neg c3, if_neg c2, hget0, if_pos c4]
    · cases item with
      | outside z =>
        have e1 : z = x := Option.some.inj hx
        have e2 : y = z := by
          rw [readArg_outside] at hy
          exact (Except.ok.inj hy).symm
        rw [e2, e1]
      | cell j =>
        have hlt : v.size_ < v.capacity_ := hsafe.1
        omega
  · have hcap : capacity_after_insert v = v.capacity_ := by
      simp [capacity_after_insert, hfull]
    obtain ⟨shifted, hs, hsl, hsh, hst⟩ :=
      shift_right_store v.items_ p v.size_ hp (by omega)
    have hval2 : item.valid shifted := by
      cases item with
      | outside z => exact True.intro
      | cell j =>
        show j < shifted.length
        rw [hsl]
        exact hval
    obtain ⟨y, hy⟩ := readArg_valid stale shifted false item hval2
    obtain ⟨hstore, hget⟩ := hst y
    refine ⟨shifted.set p y, y, ?_, ?_, ?_, fun i hi => ?_, fun x hsafe hx => ?_⟩
    · simp only [Insert, if_pos hpre, if_neg hfull, hs, Bool.false_eq_true, if_false, hy, hstore,
        hcap]
    · rw [List.length_set, hsl, hcap, h2]
    · rw [hcap]; omega
    · rw [hget i]
      by_cases c1 : i = p
      · rw [if_pos c1, if_pos c1]
      · rw [if_neg c1, if_neg c1]
        by_cases c2 : p < i
        · have c3 : p < i ∧ i ≤ v.size_ := ⟨c2, hi⟩
          rw [if_pos c3, if_pos c2]
        · have c3 : ¬ (p < i ∧ i ≤ v.size_) := fun h => c2 h.1
          rw [if_neg c3, if_neg c2]
    · have hx2 : item.value_at_call shifted = some x := by
        cases item with
        | outside z => exact hx
        | cell j =>
          have hj : j ≤ p ∨ v.size_ < j := hsafe.2
          have c : ¬ (p < j ∧ j ≤ v.size_) := by omega
          show shifted[j]? = some x
          rw [hsh j, if_neg c]
          exact hx
      have := readArg_at_call stale shifted item x hx2
      rw [hy] at this
      exact Except.ok.inj this

/-- The live elements after `Insert`, as a list; `y` is the element stored at
the position. -/
theorem Insert_live [Inhabited α] (heap stale : Nat → α) (v : SimpleVector α) (p : Nat)
    (item : ArgRef α) (hinv : Inv v) (hp : p ≤ v.size_) (hval : item.valid v.items_) :
    ∃ w y, Insert heap stale v p item = .ok (w, p) ∧ Inv w ∧ w.size_ = v.size_ + 1 ∧
      w.capacity_ = capacity_after_insert v ∧ w.items_[p]? = some y ∧
      live w = (live v).take p ++ y :: (live v).drop p ∧
      (∀ x, Insert_arg_safe v p item → item.value_at_call v.items_ = some x → y = x) := by
  obtain ⟨buf, y, hb, hl, hc, hget, hsafe⟩ := Insert_spec heap stale v p item hinv hp hval
  obtain ⟨h1, h2⟩ := hinv
  have hll : (live v).length = v.size_ := length_live v (by omega)
  refine ⟨_, y, hb, ⟨hc, hl⟩, rfl, rfl, ?_, ?_, hsafe⟩
  · show buf[p]? = some y
    rw [hget p hp, if_pos rfl]
  · apply take_eq_of_cells
    · simp only [List.length_append, List.length_take, List.length_cons, List.length_drop, hll]
      omega
    · intro i hi
      have hi2 : i ≤ v.size_ := by
        have : i < v.size_ + 1 := hi
        omega
      have htl : ((live v).take p).length = p := by
        rw [List.length_take, hll]; omega
      rw [hget i hi2]
      by_cases c1 : i = p
      · subst c1
        rw [if_pos rfl, List.getElem?_append_right (by omega), htl]
        simp
      · rw [if_neg c1]
        by_cases c2 : p < i
        · rw [if_pos c2, List.getElem?_append_right (by omega), htl]
          have e : i - p = (i - p - 1) + 1 := by omega
          rw [e, List.getElem?_cons_succ, List.getElem?_drop, live_cell]
          have e2 : p + (i - p - 1) = i - 1 := by omega
          have c3 : i - 1 < v.size_ := by omega
          rw [e2, if_pos c3]
        · have c3 : i < p := by omega
          rw [if_neg c2, List.getElem?_append_left (by omega), List.getElem?_take, if_pos c3,
            live_cell, if_pos (by omega)]

/-- What `Erase` does on a vector satisfying the invariants, at the position
of a live element. -/
theorem Erase_spec (v : SimpleVector α) (p : Nat) (hinv : Inv v) (hp : p < v.size_) :
    ∃ buf, Erase v p =
        .ok ({ items_ := buf, size_ := v.size_ - 1, capacity_ := v.capacity_ }, p) ∧
      buf.length = v.capacity_ ∧
      ∀ i, buf[i]? = if p ≤ i ∧ i < v.size_ - 1 then v.items_[i + 1]? else v.items_[i]? := by
  obtain ⟨h1, h2⟩ := hinv
  have hpre : p ≤ v.size_ ∧ p ≥ 0 := ⟨by omega, Nat.zero_le p⟩
  have hpos : v.size_ > 0 := by omega
  obtain ⟨b, hb, hl, hget⟩ := copyWithinLoop_spec (v.size_ - (p + 1)) (p + 1) p v.items_
    (by omega) (by omega)
  refine ⟨b, ?_, by rw [hl, h2], fun i => ?_⟩
  · have c : ¬ v.size_ < p + 1 := by omega
    simp only [Erase, if_pos hpre, if_pos hpos, std_copy_within, Nat.sub_zero, Nat.zero_add,
      if_neg c, hb]
  · rw [hget i]
    by_cases c1 : p ≤ i ∧ i < v.size_ - 1
    · have c2 : p ≤ i ∧ i < p + (v.size_ - (p + 1)) := by omega
      have e : p + 1 + (i - p) = i + 1 := by omega
      rw [if_pos c1, if_pos c2, e]
    · have c2 : ¬ (p ≤ i ∧ i < p + (v.size_ - (p + 1))) := by omega
      rw [if_neg c1, if_neg c2]

/-- The live elements after `Erase`, as a list. -/
theorem Erase_live (v : SimpleVector α) (p : Nat) (hinv : Inv v) (hp : p < v.size_) :
    ∃ w, Erase v p = .ok (w, p) ∧ Inv w ∧ w.size_ = v.size_ - 1 ∧
      w.capacity_ = v.capacity_ ∧
      (∀ i, w.items_[i]? = if p ≤ i ∧ i < v.size_ - 1 then v.items_[i + 1]? else v.items_[i]?) ∧
      live w = (live v).take p ++ (live v).drop (p + 1) := by
  obtain ⟨buf, hb, hl, hget⟩ := Erase_spec v p hinv hp
  obtain ⟨h1, h2⟩ := hinv
  have hll : (live v).length = v.size_ := length_live v (by omega)
  refine ⟨_, hb, ⟨?_, hl⟩, rfl, rfl, hget, ?_⟩
  · show v.size_ - 1 ≤ v.capacity_
    omega
  · apply take_eq_of_cells
    · simp only [List.length_append, List.length_take, List.length_drop, hll]
      omega
    · intro i hi
      have hi2 : i < v.size_ - 1 := hi
      have htl : ((live v).take p).length = p := by
        rw [List.length_take, hll]; omega
      rw [hget i]
      by_cases c1 : p ≤ i
      · have c2 : p ≤ i ∧ i < v.size_ - 1 := ⟨c1, hi2⟩
        have e : p + 1 + (i - p) = i + 1 := by omega
        rw [if_pos c2, List.getElem?_append_right (by omega), htl, List.getElem?_drop, e,
          live_cell, if_pos (by omega)]
      · have c2 : ¬ (p ≤ i ∧ i < v.size_ - 1) := fun h => c1 h.1
        have c3 : i < p := by omega
        rw [if_neg c2, List.getElem?_append_left (by omega), List.getElem?_take, if_pos c3,
          live_cell, if_pos (by omega)]

/-- What `PushBack` does on a vector satisfying the invariants, with an
argument that exists: `y` is the element stored at the end, and it is the value
the argument held at the call when the argument is safe. -/
theorem PushBack_spec [Inhabited α] (heap stale : Nat → α) (v : SimpleVector α)
    (item : ArgRef α) (hinv : Inv v) (hval : item.valid v.items_) :
    ∃ buf y, PushBack heap stale v item =
        .ok { items_ := buf, size_ := v.size_ + 1, capacity_ := capacity_after_push v } ∧
      buf.length = capacity_after_push v ∧ v.size_ + 1 ≤ capacity_after_push v ∧
      buf[v.size_]? = some y ∧ (∀ i, i < v.size_ → buf[i]? = v.items_[i]?) ∧
      (∀ x, PushBack_arg_safe v item → item.value_at_call v.items_ = some x → y = x) := by
  obtain ⟨h1, h2⟩ := hinv
  by_cases hlt : v.size_ < v.capacity_
  · have hs : v.size_ < v.items_.length := by omega
    have hc : capacity_after_push v = v.capacity_ := by simp [capacity_after_push, hlt]
    obtain ⟨y, hy⟩ := readArg_valid stale v.items_ false item hval
    refine ⟨v.items_.set v.size_ y, y, ?_, ?_, ?_, ?_, fun i hi => ?_, fun x _ hx => ?_⟩
    · simp only [PushBack, if_pos hlt, hy, storeAt_eq v.items_ v.size_ y hs, hc]
    · rw [List.length_set, hc, h2]
    · rw [hc]; omega
    · simp [hs]
    · have ne : v.size_ ≠ i := by omega
      rw [List.getElem?_set_ne ne]
    · have := readArg_at_call stale v.items_ item x hx
      rw [hy] at this
      exact Except.ok.inj this
  · have hk : v.capacity_ < v.size_ + 1 := by omega
    have hc : capacity_after_push v = v.size_ + 1 := by simp [capacity_after_push, hlt]
    have hrel : Resize_reallocates v (v.size_ + 1) = true := by
      simp [Resize_reallocates, hk]
    obtain ⟨buf, hb, hl, hget⟩ := Resize_grow heap v (v.size_ + 1) ⟨h1, h2⟩ hk
    have hs : v.size_ < buf.length := by omega
    obtain ⟨y, hy⟩ := readArg_valid stale v.items_ true item hval
    refine ⟨buf.set v.size_ y, y, ?_, ?_, ?_, ?_, fun i hi => ?_, fun x hsafe hx => ?_⟩
    · simp only [PushBack, if_neg hlt, hb, hrel, if_true, hy, Nat.add_sub_cancel,
        storeAt_eq buf v.size_ y hs, hc]
    · rw [List.length_set, hc, hl]
    · rw [hc]
    · simp [hs]
    · have ne : v.size_ ≠ i := by omega
      rw [List.getElem?_set_ne ne, hget i, if_pos hi]
    · cases item with
      | outside z =>
        have e1 : z = x := Option.some.inj hx
        have e2 : y = z := by
          rw [readArg_outside] at hy
          exact (Except.ok.inj hy).symm
        rw [e2, e1]
      | cell j =>
        have : v.size_ < v.capacity_ := hsafe
        omega

/-- The vector `PushBack` leaves behind, with its live elements as a list; `y`
is the element stored at the end. -/
theorem PushBack_live [Inhabited α] (heap stale : Nat → α) (v : SimpleVector α)
    (item : ArgRef α) (hinv : Inv v) (hval : item.valid v.items_) :
    ∃ w y, PushBack heap stale v item = .ok w ∧ Inv w ∧ w.size_ = v.size_ + 1 ∧
      w.capacity_ = capacity_after_push v ∧ w.index v.size_ = .ok y ∧
      (∀ i, i < v.size_ → w.index i = v.index i) ∧ live w = live v ++ [y] ∧
      (∀ x, PushBack_arg_safe v item → item.value_at_call v.items_ = some x → y = x) := by
  obtain ⟨buf, y, hb, hl, hc, hy, hget, hsafe⟩ := PushBack_spec heap stale v item hinv hval
  obtain ⟨h1, h2⟩ := hinv
  have hll : (live v).length = v.size_ := length_live v (by omega)
  refine ⟨_, y, hb, ⟨hc, hl⟩, rfl, rfl, ?_, fun i hi => ?_, ?_, hsafe⟩
  · exact loadAt_eq buf v.size_ y hy
  · simp only [index, loadAt, hget i hi]
  · apply take_eq_of_cells
    · rw [List.length_append, hll]; rfl
    · intro i hi
      by_cases hi2 : i < v.size_
      · rw [hget i hi2, List.getElem?_append_left (by rw [hll]; exact hi2), live_cell,
          if_pos hi2]
      · have e : i = v.size_ := by
          have : i < v.size_ + 1 := hi
          omega
        subst e
        rw [List.getElem?_append_right (by rw [hll]), hll, hy]
        simp

/-- What `Reserve` does when it has to reallocate. -/
theorem Reserve_grow (heap : Nat → α) (v : SimpleVector α) (k : Nat) (hinv : Inv v)
    (hk : v.capacity_ < k) :
    ∃ buf, Reserve heap v k = .ok { items_ := buf, size_ := v.size_, capacity_ := k } ∧
      buf.length = k ∧ ∀ i, i < v.size_ → buf[i]? = v.items_[i]? := by
  obtain ⟨h1, h2⟩ := hinv
  obtain ⟨buf, hb, hl, hget⟩ := copy_into_fresh heap v k (by omega) (by omega)
  refine ⟨buf, ?_, hl, fun i hi => ?_⟩
  · simp only [Reserve, gt_iff_lt, if_pos hk, hb]
  · rw [hget i, if_pos hi]

/-- What the copy constructor does on a vector satisfying the invariants: the
new buffer has `other.size_` cells, the recorded capacity is `other.capacity_`. -/
theorem ctor_copy_spec (heap : Nat → α) (other : SimpleVector α) (hinv : Inv other) :
    ∃ buf, ctor_copy heap other =
        .ok { items_ := buf, size_ := other.size_, capacity_ := other.capacity_ } ∧
      buf.length = other.size_ ∧ buf = live other := by
  obtain ⟨h1, h2⟩ := hinv
  obtain ⟨buf, hb, hl, hget⟩ := copy_into_fresh heap other other.size_ (by omega) (le_refl _)
  refine ⟨buf, ?_, hl, ?_⟩
  · simp only [ctor_copy, GetSize, GetCapacity, hb]
  · have e : buf = buf.take other.size_ := by
      rw [← hl, List.take_length]
    rw [e]
    apply take_eq_of_cells _ _ _ (length_live other (by omega))
    intro i hi
    rw [hget i, if_pos hi, live_cell, if_pos hi]

/-! ### Preservation of `size <= capacity` by every result -/

theorem Resize_preserves [Inhabited α] (heap : Nat → α) (v w : SimpleVector α) (k : Nat)
    (h : v.size_ ≤ v.capacity_) (hw : Resize heap v k = .ok w) : w.size_ ≤ w.capacity_ := by
  unfold Resize at hw
  split at hw
  · cases hw
    show k ≤ v.capacity_
    omega
  · split at hw
    · split at hw
      · cases hw
        exact le_refl _
      · cases hw
    · split at hw
      · cases hw
        exact h
      · cases hw

theorem PushBack_preserves [Inhabited α] (heap stale : Nat → α) (v w : SimpleVector α)
    (item : ArgRef α) (h : v.size_ ≤ v.capacity_) (hw : PushBack heap stale v item = .ok w) :
    w.size_ ≤ w.capacity_ := by
  unfold PushBack at hw
  split at hw
  · split at hw
    · split at hw
      · cases hw
        show v.size_ + 1 ≤ v.capacity_
        omega
      · cases hw
    · cases hw
  · split at hw
    · rename_i u hu
      have := Resize_preserves heap v u _ h hu
      simp only at hw
      split at hw
      · split at hw
        · cases hw
          exact this
        · cases hw
      · cases hw
    · cases hw

theorem Insert_preserves [Inhabited α] (heap stale : Nat → α) (v w : SimpleVector α)
    (p it : Nat) (item : ArgRef α) (h : v.size_ ≤ v.capacity_)
    (hw : Insert heap stale v p item = .ok (w, it)) :
    w.size_ ≤ w.capacity_ := by
  unfold Insert at hw
  split at hw
  · by_cases hfull : v.size_ = v.capacity_
    · simp only [if_pos hfull] at hw
      split at hw
      · rename_i u it2 released hu
        split at hu
        · cases hu
          split at hw
          · split at hw
            · split at hw
              · cases hw
                show v.size_ + 1 ≤ (if v.capacity_ = 0 then 1 else v.capacity_ * 2)
                split <;> omega
              · cases hw
            · cases hw
          · cases hw
        · cases hu
      · cases hw
    · simp only [if_neg hfull] at hw
      split at hw
      · split at hw
        · split at hw
          · cases hw
            show v.size_ + 1 ≤ v.capacity_
            omega
          · cases hw
        · cases hw
      · cases hw
  · cases hw

theorem Erase_preserves (v w : SimpleVector α) (p it : Nat)
    (h : v.size_ ≤ v.capacity_) (hw : Erase v p = .ok (w, it)) :
    w.size_ ≤ w.capacity_ := by
  unfold Erase at hw
  split at hw
  · split at hw
    · split at hw
      · cases hw
        show v.size_ - 1 ≤ v.capacity_
        omega
      · cases hw
    · cases hw
      exact h
  · cases hw

theorem Reserve_preserves (heap : Nat → α) (v w : SimpleVector α) (k : Nat)
    (h : v.size_ ≤ v.capacity_) (hw : Reserve heap v k = .ok w) : w.size_ ≤ w.capacity_ := by
  unfold Reserve at hw
  split at hw
  · split at hw
    · cases hw
      show v.size_ ≤ k
      omega
    · cases hw
  · cases hw
    exact h

theorem PopBack_preserves (v w : SimpleVector α)
    (h : v.size_ ≤ v.capacity_) (hw : PopBack v = .ok w) : w.size_ ≤ w.capacity_ := by
  unfold PopBack at hw
  split at hw
  · cases hw
    show v.size_ - 1 ≤ v.capacity_
    omega
  · cases hw

theorem ctor_copy_preserves (heap : Nat → α) (other w : SimpleVector α)
    (h : other.size_ ≤ other.capacity_) (hw : ctor_copy heap other = .ok w) :
    w.size_ ≤ w.capacity_ := by
  unfold ctor_copy at hw
  split at hw
  · cases hw
    exact h
  · cases hw

theorem assign_copy_preserves (heap : Nat → α) (v rhs w : SimpleVector α) (same_object : Bool)
    (h : v.size_ ≤ v.capacity_) (hr : rhs.size_ ≤ rhs.capacity_)
    (hw : assign_copy heap v rhs same_object = .ok w) : w.size_ ≤ w.capacity_ := by
  unfold assign_copy at hw
  split at hw
  · split at hw
    · rename_i c hc
      cases hw
      exact ctor_copy_preserves heap rhs c hr hc
    · cases hw
  · cases hw
    exact h

/-! ### The operations return a result -/

/-- The branch of `Resize` that fills without reallocating, when the cells
`[size, size + new_size)` all lie in the buffer: the size is not changed. -/
theorem Resize_within_spec [Inhabited α] (heap : Nat → α) (v : SimpleVector α) (k : Nat)
    (hinv : Inv v) (h1 : v.size_ ≤ k) (h2 : k ≤ v.capacity_)
    (h3 : v.size_ + k ≤ v.capacity_) :
    ∃ buf, Resize heap v k = .ok { items_ := buf, size_ := v.size_, capacity_ := v.capacity_ } ∧
      buf.length = v.capacity_ ∧
      ∀ i, buf[i]? = if v.size_ ≤ i ∧ i < v.size_ + k then some default else v.items_[i]? := by
  obtain ⟨hi1, hi2⟩ := hinv
  obtain ⟨b, hb, hl, hget⟩ := fillLoop_spec (fun _ => (default : α)) k v.size_ v.items_
    (by omega)
  refine ⟨b, ?_, by rw [hl, hi2], hget⟩
  have c1 : ¬ k < v.size_ := by omega
  have c2 : ¬ k > v.capacity_ := by omega
  have c3 : ¬ v.size_ + k < v.size_ := by omega
  simp only [Resize, if_neg c1, if_neg c2, std_generate, if_neg c3, Nat.add_sub_cancel_left, hb]

/-- The branch of `Resize` that fills without reallocating, when one of the
cells `[size, size + new_size)` lies outside the buffer. -/
theorem Resize_within_fault [Inhabited α] (heap : Nat → α) (v : SimpleVector α) (k : Nat)
    (hinv : Inv v) (h1 : v.size_ ≤ k) (h2 : k ≤ v.capacity_)
    (h3 : v.capacity_ < v.size_ + k) :
    Resize heap v k = .error .out_of_bounds := by
  obtain ⟨hi1, hi2⟩ := hinv
  have c1 : ¬ k < v.size_ := by omega
  have c2 : ¬ k > v.capacity_ := by omega
  have c3 : ¬ v.size_ + k < v.size_ := by omega
  obtain ⟨m, hm⟩ : ∃ m, k = m + 1 := ⟨k - 1, by omega⟩
  have hf := fillLoop_fault (fun _ => (default : α)) m v.size_ v.items_ (by omega)
  simp only [Resize, if_neg c1, if_neg c2, std_generate, if_neg c3, Nat.add_sub_cancel_left]
  rw [hm, hf]

theorem Resize_returns [Inhabited α] (heap : Nat → α) (v : SimpleVector α) (k : Nat)
    (hinv : Inv v) (hk : k < v.size_ ∨ v.capacity_ < k ∨ v.size_ + k ≤ v.capacity_) :
    ∃ w, Resize heap v k = .ok w := by
  by_cases c1 : k < v.size_
  · exact ⟨{ v with size_ := k }, by simp only [Resize, if_pos c1]⟩
  · by_cases c2 : v.capacity_ < k
    · obtain ⟨buf, hb, _⟩ := Resize_grow heap v k hinv c2
      exact ⟨_, hb⟩
    · obtain ⟨buf, hb, _⟩ := Resize_within_spec heap v k hinv (by omega) (by omega) (by omega)
      exact ⟨_, hb⟩

theorem Reserve_returns (heap : Nat → α) (v : SimpleVector α) (k : Nat) (hinv : Inv v) :
    ∃ w, Reserve heap v k = .ok w := by
  by_cases hk : v.capacity_ < k
  · obtain ⟨buf, hb, _⟩ := Reserve_grow heap v k hinv hk
    exact ⟨_, hb⟩
  · exact ⟨v, by simp only [Reserve, gt_iff_lt, if_neg hk]⟩

theorem PopBack_returns (v : SimpleVector α) (h : v.size_ > 0) :
    PopBack v = .ok { v with size_ := v.size_ - 1 } := by
  have c : v.size_ ≠ 0 := by omega
  simp [PopBack, IsEmpty, c]

/-- Filling the whole of freshly allocated storage. -/
theorem fill_fresh (heap : Nat → α) (n : Nat) (x : α) :
    ∃ buf, std_fill (allocate heap n) 0 n x = .ok buf ∧ buf.length = n ∧
      ∀ i, i < n → buf[i]? = some x := by
  obtain ⟨b, hb, hl, hget⟩ := fillLoop_spec (fun _ => x) n 0 (allocate heap n)
    (by rw [length_allocate]; omega)
  refine ⟨b, ?_, by rw [hl, length_allocate], fun i hi => ?_⟩
  · simp only [std_fill, std_generate, Nat.not_lt_zero, if_false, Nat.sub_zero, hb]
  · have c : 0 ≤ i ∧ i < 0 + n := by omega
    rw [hget i, if_pos c]

theorem ctor_size_value_spec (heap : Nat → α) (n : Nat) (x : α) :
    ∃ buf, ctor_size_value heap n x = .ok { items_ := buf, size_ := n, capacity_ := n } ∧
      buf.length = n ∧ ∀ i, i < n → buf[i]? = some x := by
  obtain ⟨buf, hb, hl, hget⟩ := fill_fresh heap n x
  exact ⟨buf, by simp only [ctor_size_value, hb], hl, hget⟩

theorem ctor_size_spec [Inhabited α] (heap : Nat → α) (n : Nat) :
    ∃ buf, ctor_size heap n = .ok { items_ := buf, size_ := n, capacity_ := n } ∧
      buf.length = n ∧ ∀ i, i < n → buf[i]? = some default := by
  obtain ⟨buf, hb, hl, hget⟩ := fill_fresh heap n (default : α)
  exact ⟨buf, by simp only [ctor_size, hb], hl, hget⟩

theorem ctor_init_list_spec (heap : Nat → α) (init : List α) :
    ctor_init_list heap init =
      .ok { items_ := init, size_ := init.length, capacity_ := init.length } := by
  obtain ⟨b, hb, hl, hget⟩ := copyLoop_spec init init.length 0 0 (allocate heap init.length)
    (by omega) (by rw [length_allocate]; omega)
  have e : b = init := by
    apply List.ext_getElem?
    intro i
    rw [hget i]
    by_cases c : 0 ≤ i ∧ i < 0 + init.length
    · rw [if_pos c]; simp
    · rw [if_neg c, allocate_cell, if_neg (by omega), List.getElem?_eq_none (by omega)]
  simp only [ctor_init_list, std_copy, Nat.not_lt_zero, if_false, Nat.sub_zero, hb, e]

theorem assign_copy_returns (heap : Nat → α) (v rhs : SimpleVector α) (same_object : Bool)
    (hinv : Inv rhs) : ∃ w, assign_copy heap v rhs same_object = .ok w := by
  obtain ⟨buf, hb, _⟩ := ctor_copy_spec heap rhs hinv
  cases same_object
  · exact ⟨(swap v { items_ := buf, size_ := rhs.size_, capacity_ := rhs.capacity_ }).1,
      by simp only [assign_copy, Bool.not_false, if_true, hb]⟩
  · exact ⟨v, by simp [assign_copy]⟩

/-! ### Checked access, capacity growth of `PushBack` -/

/-- A read of the buffer fails only as an out-of-bounds access. -/
theorem loadAt_ne_out_of_range (buf : ArrayPtr α) (i : Nat) :
    loadAt buf i ≠ .error .out_of_range := by
  unfold loadAt
  split
  · intro h; cases h
  · intro h; cases h

/-- The checked access inside the live range reads the cell, like the
unchecked one. -/
theorem At_live (v : SimpleVector α) (i : Nat) (hl : live_in_buffer v) (hi : i < v.size_) :
    At v i = .ok (v.items_.get ⟨i, Nat.lt_of_lt_of_le hi hl⟩) ∧ At v i = v.index i := by
  have c : ¬ i ≥ v.size_ := by omega
  have hlt : i < v.items_.length := Nat.lt_of_lt_of_le hi hl
  refine ⟨?_, ?_⟩
  · simp only [At, if_neg c]
    exact loadAt_eq v.items_ i _ (List.getElem?_eq_getElem hlt)
  · simp only [At, if_neg c, index]

/-- Pushing the values of a list one after the other. -/
theorem PushBack_all_spec [Inhabited α] (heap stale : Nat → α) (xs : List α) :
    ∀ v : SimpleVector α, Inv v →
      ∃ w, PushBack_all heap stale v xs = .ok w ∧ Inv w ∧ w.size_ = v.size_ + xs.length ∧
        live w = live v ++ xs ∧ (v.size_ = v.capacity_ → w.capacity_ = w.size_) := by
  induction xs with
  | nil =>
    intro v hinv
    exact ⟨v, rfl, hinv, rfl, by simp, fun h => h.symm⟩
  | cons x xs ih =>
    intro v hinv
    obtain ⟨u, y, hu, hinvu, hsu, hcu, _, _, hlive, hsafe⟩ :=
      PushBack_live heap stale v (.outside x) hinv True.intro
    have hyx : y = x := hsafe x True.intro rfl
    obtain ⟨w, hw, hinvw, hsw, hlw, hcw⟩ := ih u hinvu
    refine ⟨w, ?_, hinvw, ?_, ?_, fun hfull => ?_⟩
    · simp only [PushBack_all, hu, hw]
    · rw [hsw, hsu, List.length_cons]
      omega
    · rw [hlw, hlive, hyx, List.append_assoc]
      rfl
    · apply hcw
      rw [hsu, hcu]
      unfold capacity_after_push
      rw [if_neg (by omega)]

end SimpleVector

end SimpleVec

/-! ## Lemmas on the relational operators -/

namespace SimpleVec

variable {α : Type}

/-- The cells `[first, first + n)` of a buffer, as a list. -/
theorem slice_succ (a : List α) (first n : Nat) (h : first < a.length) :
    (a.drop first).take (n + 1) = a[first] :: (a.drop (first + 1)).take n := by
  rw [List.drop_eq_getElem_cons h, List.take_succ_cons]

/-- The comparison loop of `std::equal` over cells that lie in the buffers:
it answers whether the two ranges hold the same elements. -/
theorem equalLoop_spec [BEq α] [LawfulBEq α] (a b : ArrayPtr α) :
    ∀ (n first1 first2 : Nat), first1 + n ≤ a.length → first2 + n ≤ b.length →
      ∃ r, equalLoop a b n first1 first2 = .ok r ∧
        (r = true ↔ (a.drop first1).take n = (b.drop first2).take n) := by
  intro n
  induction n with
  | zero =>
    intro first1 first2 _ _
    exact ⟨true, rfl, by simp⟩
  | succ n ih =>
    intro first1 first2 h1 h2
    have hf1 : first1 < a.length := by omega
    have hf2 : first2 < b.length := by omega
    rw [slice_succ a first1 n hf1, slice_succ b first2 n hf2]
    by_cases hxy : a[first1] = b[first2]
    · obtain ⟨r, hr, hiff⟩ := ih (first1 + 1) (first2 + 1) (by omega) (by omega)
      refine ⟨r, ?_, ?_⟩
      · simp only [equalLoop, loadAt_eq a first1 a[first1] (List.getElem?_eq_getElem hf1),
          loadAt_eq b first2 b[first2] (List.getElem?_eq_getElem hf2), hxy, beq_self_eq_true,
          Bool.not_true, Bool.false_eq_true, if_false, hr]
      · rw [hiff, hxy]
        simp
    · refine ⟨false, ?_, ?_⟩
      · have hne : (a[first1] == b[first2]) = false := by
          rw [beq_eq_false_iff_ne]
          exact hxy
        simp only [equalLoop, loadAt_eq a first1 a[first1] (List.getElem?_eq_getElem hf1),
          loadAt_eq b first2 b[first2] (List.getElem?_eq_getElem hf2), hne, Bool.not_false,
          if_true]
      · constructor
        · intro h; cases h
        · intro h
          exact absurd (List.cons.inj h).1 hxy

/-- The loop of `std::lexicographical_compare` over cells that lie in the
buffers computes the lexicographic comparison of the two ranges. -/
theorem lexLoop_spec [LT α] [DecidableRel (@LT.lt α _)] (a b : ArrayPtr α) :
    ∀ (n1 n2 first1 first2 : Nat), first1 + n1 ≤ a.length → first2 + n2 ≤ b.length →
      lexLoop a b n1 n2 first1 first2 =
        .ok (lexLess ((a.drop first1).take n1) ((b.drop first2).take n2)) := by
  intro n1
  induction n1 with
  | zero =>
    intro n2 first1 first2 _ h2
    cases n2 with
    | zero => simp [lexLoop, lexLess]
    | succ n2 =>
      have hf2 : first2 < b.length := by omega
      rw [slice_succ b first2 n2 hf2]
      simp [lexLoop, lexLess]
  | succ n1 ih =>
    intro n2 first1 first2 h1 h2
    have hf1 : first1 < a.length := by omega
    rw [slice_succ a first1 n1 hf1]
    cases n2 with
    | zero => simp [lexLoop, lexLess]
    | succ n2 =>
      have hf2 : first2 < b.length := by omega
      rw [slice_succ b first2 n2 hf2]
      simp only [lexLoop, loadAt_eq a first1 a[first1] (List.getElem?_eq_getElem hf1),
        loadAt_eq b first2 b[first2] (List.getElem?_eq_getElem hf2), lexLess]
      by_cases c1 : a[first1] < b[first2]
      · simp only [if_pos c1]
      · simp only [if_neg c1]
        by_cases c2 : b[first2] < a[first1]
        · simp only [if_pos c2]
        · simp only [if_neg c2]
          exact ih n2 (first1 + 1) (first2 + 1) (by omega) (by omega)

theorem lexLess_irrefl [LinearOrder α] : ∀ l : List α, lexLess l l = false := by
  intro l
  induction l with
  | nil => rfl
  | cons x xs ih => simp [lexLess, ih]

theorem lexLess_asymm [LinearOrder α] :
    ∀ l1 l2 : List α, lexLess l1 l2 = true → lexLess l2 l1 = false := by
  intro l1
  induction l1 with
  | nil =>
    intro l2 _
    cases l2 <;> rfl
  | cons x xs ih =>
    intro l2 h
    cases l2 with
    | nil => simp [lexLess] at h
    | cons y ys =>
      rcases lt_trichotomy x y with hlt | heq | hgt
      · have c : ¬ y < x := not_lt.mpr (le_of_lt hlt)
        simp [lexLess, hlt, c]
      · subst heq
        simp only [lexLess, lt_irrefl, if_false] at h ⊢
        exact ih ys h
      · have c : ¬ x < y := not_lt.mpr (le_of_lt hgt)
        simp [lexLess, hgt, c] at h

theorem lexLess_total [LinearOrder α] :
    ∀ l1 l2 : List α, lexLess l1 l2 = false → lexLess l2 l1 = false → l1 = l2 := by
  intro l1
  induction l1 with
  | nil =>
    intro l2 h _
    cases l2 with
    | nil => rfl
    | cons y ys => simp [lexLess] at h
  | cons x xs ih =>
    intro l2 h1 h2
    cases l2 with
    | nil => simp [lexLess] at h2
    | cons y ys =>
      rcases lt_trichotomy x y with hlt | heq | hgt
      · simp [lexLess, hlt] at h1
      · subst heq
        simp only [lexLess, lt_irrefl, if_false] at h1 h2
        rw [ih ys h1 h2]
      · simp [lexLess, hgt] at h2

/-- Two vectors have the same live elements exactly when their sizes agree
and unchecked indexing agrees below the size. -/
theorem live_eq_iff (a b : SimpleVector α) (ha : SimpleVector.live_in_buffer a)
    (hb : SimpleVector.live_in_buffer b) :
    a.live = b.live ↔ a.size_ = b.size_ ∧ ∀ i, i < a.size_ → a.index i = b.index i := by
  have hla := SimpleVector.length_live a ha
  have hlb := SimpleVector.length_live b hb
  constructor
  · intro h
    have hs : a.size_ = b.size_ := by rw [← hla, ← hlb, h]
    refine ⟨hs, fun i hi => ?_⟩
    have e : a.items_[i]? = b.items_[i]? := by
      have := congrArg (fun l : List α => l[i]?) h
      simp only [SimpleVector.live_cell, if_pos hi, if_pos (hs ▸ hi)] at this
      exact this
    simp only [SimpleVector.index, loadAt, e]
  · intro ⟨hs, h⟩
    apply SimpleVector.take_eq_of_cells _ _ _ (by rw [hlb, hs])
    intro i hi
    have hia : i < a.items_.length := Nat.lt_of_lt_of_le hi ha
    have hib : i < b.items_.length := Nat.lt_of_lt_of_le (hs ▸ hi) hb
    have e := h i hi
    simp only [SimpleVector.index, loadAt, List.getElem?_eq_getElem hia,
      List.getElem?_eq_getElem hib, Except.ok.injEq] at e
    rw [SimpleVector.live_cell, if_pos (hs ▸ hi), List.getElem?_eq_getElem hia,
      List.getElem?_eq_getElem hib, e]

/-- What `operator==` computes on two vectors whose storage covers their live
ranges. -/
theorem operator_eq_spec [BEq α] [LawfulBEq α] (a b : SimpleVector α)
    (ha : SimpleVector.live_in_buffer a) (hb : SimpleVector.live_in_buffer b) :
    ∃ r, operator_eq a b = .ok r ∧ (r = true ↔ a.live = b.live) := by
  have hla := SimpleVector.length_live a ha
  have hlb := SimpleVector.length_live b hb
  by_cases hs : a.size_ = b.size_
  · obtain ⟨r, hr, hiff⟩ := equalLoop_spec a.items_ b.items_ a.size_ 0 0
      (by unfold SimpleVector.live_in_buffer at ha; omega)
      (by unfold SimpleVector.live_in_buffer at hb; omega)
    refine ⟨r, ?_, ?_⟩
    · simp only [operator_eq, SimpleVector.GetSize, if_pos hs, std_equal, Nat.not_lt_zero,
        if_false, Nat.sub_zero, hr]
    · rw [hiff]
      simp only [List.drop_zero, SimpleVector.live, hs]
  · refine ⟨false, ?_, ?_⟩
    · simp only [operator_eq, SimpleVector.GetSize, if_neg hs]
    · constructor
      · intro h; cases h
      · intro h
        exact absurd (by rw [← hla, ← hlb, h]) hs

/-- What `operator<` computes on two vectors whose storage covers their live
ranges. -/
theorem operator_lt_spec [LT α] [DecidableRel (@LT.lt α _)] (a b : SimpleVector α)
    (ha : SimpleVector.live_in_buffer a) (hb : SimpleVector.live_in_buffer b) :
    operator_lt a b = .ok (lexLess a.live b.live) := by
  have h := lexLoop_spec a.items_ b.items_ a.size_ b.size_ 0 0
    (by unfold SimpleVector.live_in_buffer at ha; omega)
    (by unfold SimpleVector.live_in_buffer at hb; omega)
  have c : ¬ (a.size_ < 0 ∨ b.size_ < 0) := by omega
  simp only [operator_lt, std_lexicographical_compare, if_neg c, Nat.sub_zero, h, List.drop_zero,
    SimpleVector.live]

end SimpleVec

/-! ## The claims -/

namespace SimpleVec

namespace SimpleVector

variable {α : Type}

/-- C3: on a vector that satisfies the data-model invariants, with live
elements `[x0 .. x(n-1)]` and `n > 0`, `Erase(begin + p)` for `0 <= p < n`
yields the live elements `[x0 .. x(p-1), x(p+1) .. x(n-1)]`, size `n - 1` and
the same capacity, and returns position `p`: there the shifted successor is
read, or it is the new end when `p = n - 1`. -/
theorem Erase_postcondition (v : SimpleVector α) (p : Nat) (hinv : Inv v)
    (hp : p < v.size_) :
    ∃ w it, Erase v p = .ok (w, it) ∧ it = p ∧
      live w = (live v).take p ++ (live v).drop (p + 1) ∧
      w.size_ = v.size_ - 1 ∧ w.capacity_ = v.capacity_ ∧
      (p + 1 < v.size_ → w.index it = v.index (p + 1)) ∧
      (p = v.size_ - 1 → it = w.size_) := by
  obtain ⟨w, hw, _, hs, hc, hget, hlive⟩ := Erase_live v p hinv hp
  refine ⟨w, p, hw, rfl, hlive, hs, hc, fun h => ?_, fun h => ?_⟩
  · have c : p ≤ p ∧ p < v.size_ - 1 := by omega
    simp only [index, loadAt, hget p, if_pos c]
  · rw [hs]; exact h

/-- C3, at the scenario of the specification: `Erase(begin)` on
`[10, 2, 3, 4]`. -/
theorem Erase_postcondition_witness :
    (Inv (⟨[10, 2, 3, 4], 4, 4⟩ : SimpleVector Nat) ∧ 0 < 4) ∧
    ∃ w it, Erase (⟨[10, 2, 3, 4], 4, 4⟩ : SimpleVector Nat) 0 = .ok (w, it) ∧ it = 0 ∧
      live w = [] ++ [2, 3, 4] ∧ w.size_ = 4 - 1 ∧ w.capacity_ = 4 ∧
      (0 + 1 < 4 → w.index it = (⟨[10, 2, 3, 4], 4, 4⟩ : SimpleVector Nat).index (0 + 1)) ∧
      (0 = 4 - 1 → it = w.size_) :=
  ⟨by decide, Erase_postcondition ⟨[10, 2, 3, 4], 4, 4⟩ 0 (by decide) (by decide)⟩

/-- C5, evaluated where the claim fails: a vector of size 1 and capacity 4 is
resized to 2 (`size <= 2 <= capacity`).  The size stays 1 instead of becoming
2, and the cells written are `[1, 3)` (that is `[size, size + 2)`) instead of
`[1, 2)`. -/
theorem Resize_within_capacity_keeps_size :
    Inv (⟨[1, 7, 7, 7], 1, 4⟩ : SimpleVector Nat) ∧
    Resize (fun _ => 7) (⟨[1, 7, 7, 7], 1, 4⟩ : SimpleVector Nat) 2 =
      .ok ⟨[1, 0, 0, 7], 1, 4⟩ :=
  ⟨by decide, rfl⟩

/-- C6, evaluated where the claim fails: the full vector `[1, 2, 3]` is resized
to 5 while fresh storage holds 7 in every cell.  Size and capacity become 5 and
`[1, 2, 3]` is kept, but positions 3 and 4 hold what the fresh storage held,
not the default value 0: the reallocating branch writes no defaults. -/
theorem Resize_beyond_capacity_no_defaults :
    Inv (⟨[1, 2, 3], 3, 3⟩ : SimpleVector Nat) ∧
    Resize (fun _ => 7) (⟨[1, 2, 3], 3, 3⟩ : SimpleVector Nat) 5 =
      .ok ⟨[1, 2, 3, 7, 7], 5, 5⟩ ∧
    (default : Nat) = 0 :=
  ⟨by decide, rfl, rfl⟩

/-- C7, evaluated where the claim fails: the full vector `[1]` is resized to
its own size 1.  The fill runs over `[size, size + 1)` and writes the cell at
position 1, outside the one-cell buffer. -/
theorem Resize_to_same_size_out_of_bounds :
    Inv (⟨[1], 1, 1⟩ : SimpleVector Nat) ∧
    Resize (fun _ => 7) (⟨[1], 1, 1⟩ : SimpleVector Nat) 1 = .error .out_of_bounds :=
  ⟨by decide, rfl⟩

/-- C8: on a vector that satisfies the data-model invariants, `Reserve(k)` with
`k > capacity` yields capacity `k` with the size and the live elements
unchanged, and `Reserve(k)` with `k <= capacity` leaves capacity, size and live
elements unchanged. -/
theorem Reserve_postcondition (heap : Nat → α) (v : SimpleVector α) (k : Nat) (hinv : Inv v) :
    ∃ w, Reserve heap v k = .ok w ∧ w.size_ = v.size_ ∧ live w = live v ∧
      (∀ i, i < v.size_ → w.index i = v.index i) ∧
      (k > v.capacity_ → w.capacity_ = k) ∧ (k ≤ v.capacity_ → w.capacity_ = v.capacity_) := by
  by_cases hk : v.capacity_ < k
  · obtain ⟨buf, hb, hl, hget⟩ := Reserve_grow heap v k hinv hk
    obtain ⟨h1, h2⟩ := hinv
    refine ⟨_, hb, rfl, ?_, fun i hi => ?_, fun _ => rfl, fun h => ?_⟩
    · apply take_eq_of_cells _ _ _ (length_live v (by omega))
      intro i hi
      have hi2 : i < v.size_ := hi
      rw [hget i hi2, live_cell, if_pos hi2]
    · simp only [index, loadAt, hget i hi]
    · omega
  · refine ⟨v, ?_, rfl, rfl, fun _ _ => rfl, fun h => ?_, fun _ => rfl⟩
    · simp only [Reserve, gt_iff_lt, if_neg hk]
    · omega

/-- C8, on the vector `[1, 2]` with capacity 3, reserving 5. -/
theorem Reserve_postcondition_witness :
    Inv (⟨[1, 2, 9], 2, 3⟩ : SimpleVector Nat) ∧
    ∃ w, Reserve (fun _ => 0) (⟨[1, 2, 9], 2, 3⟩ : SimpleVector Nat) 5 = .ok w ∧
      w.size_ = 2 ∧ live w = [1, 2] ∧
      (∀ i, i < 2 → w.index i = (⟨[1, 2, 9], 2, 3⟩ : SimpleVector Nat).index i) ∧
      (5 > 3 → w.capacity_ = 5) ∧ (5 ≤ 3 → w.capacity_ = 3) :=
  ⟨by decide, Reserve_postcondition (fun _ => 0) ⟨[1, 2, 9], 2, 3⟩ 5 (by decide)⟩

/-- C9, evaluated where the claim fails: the source has size 2 and capacity 4.
The copy has size 2 and the live elements `[1, 2]` in a buffer of 2 cells, but
its recorded capacity is 4 (the capacity of the source), not 2. -/
theorem ctor_copy_keeps_source_capacity :
    Inv (⟨[1, 2, 7, 7], 2, 4⟩ : SimpleVector Nat) ∧
    ctor_copy (fun _ => 7) (⟨[1, 2, 7, 7], 2, 4⟩ : SimpleVector Nat) = .ok ⟨[1, 2], 2, 4⟩ :=
  ⟨by decide, rfl⟩

/-- C11: `At(index)` fails if and only if `index >= size`, and then with the
out-of-range error; for `index < size` it returns the element at position
`index`, the one unchecked indexing returns.  `At` only reads: it yields no new
vector state, so size, capacity and contents stay as they are.  In particular
`At(size)` and `At(size + 1)` fail and `At(size - 1)` succeeds when
`size > 0`. -/
theorem At_postcondition (v : SimpleVector α) (i : Nat) (hl : live_in_buffer v) :
    ((∃ e, At v i = .error e) ↔ i ≥ v.size_) ∧
    (At v i = .error .out_of_range ↔ i ≥ v.size_) ∧
    (i < v.size_ → ∃ x, At v i = .ok x ∧ v.index i = .ok x ∧ (live v)[i]? = some x) ∧
    At v v.size_ = .error .out_of_range ∧
    At v (v.size_ + 1) = .error .out_of_range ∧
    (v.size_ > 0 → ∃ x, At v (v.size_ - 1) = .ok x) := by
  have hge : ∀ j, j ≥ v.size_ → At v j = .error .out_of_range := by
    intro j hj
    simp only [At, if_pos hj]
  have hlt : ∀ j, j < v.size_ →
      ∃ x, At v j = .ok x ∧ v.index j = .ok x ∧ (live v)[j]? = some x := by
    intro j hj
    obtain ⟨h1, h2⟩ := At_live v j hl hj
    refine ⟨_, h1, by rw [← h2, h1], ?_⟩
    rw [live_cell, if_pos hj]
    exact List.getElem?_eq_getElem (Nat.lt_of_lt_of_le hj hl)
  refine ⟨⟨fun h => ?_, fun h => ⟨_, hge i h⟩⟩, ⟨fun h => ?_, hge i⟩, hlt i,
    hge _ (le_refl _), hge _ (by omega), fun hpos => ?_⟩
  · by_contra hc
    obtain ⟨x, hx, _⟩ := hlt i (by omega)
    obtain ⟨e, he⟩ := h
    rw [hx] at he
    cases he
  · by_contra hc
    obtain ⟨x, hx, _⟩ := hlt i (by omega)
    rw [hx] at h
    cases h
  · obtain ⟨x, hx, _⟩ := hlt (v.size_ - 1) (by omega)
    exact ⟨x, hx⟩

/-- C11, at the scenario of the specification: `At(10)` on a vector of size
3. -/
theorem At_postcondition_witness :
    live_in_buffer (⟨[1, 2, 3], 3, 3⟩ : SimpleVector Nat) ∧
    At (⟨[1, 2, 3], 3, 3⟩ : SimpleVector Nat) 10 = .error .out_of_range :=
  ⟨by decide,
    (At_postcondition (⟨[1, 2, 3], 3, 3⟩ : SimpleVector Nat) 10 (by decide)).2.1.2 (by decide)⟩

/-- C12: for two vectors (whose storage covers their live ranges), `a == b`
holds if and only if the sizes are equal and for every `i < a.size` the
elements at position `i` are equal; the result is the same for any two vectors
with the same live elements, whatever their capacities and the contents of the
positions `[size, capacity)`. -/
theorem operator_eq_postcondition [BEq α] [LawfulBEq α] (a b : SimpleVector α)
    (ha : live_in_buffer a) (hb : live_in_buffer b) :
    ∃ r, operator_eq a b = .ok r ∧ operator_ne a b = .ok (!r) ∧
      (r = true ↔ a.size_ = b.size_ ∧ ∀ i, i < a.size_ → a.index i = b.index i) ∧
      (∀ a2 b2 : SimpleVector α, live_in_buffer a2 → live_in_buffer b2 →
        live a2 = live a → live b2 = live b → operator_eq a2 b2 = .ok r) := by
  obtain ⟨r, hr, hiff⟩ := operator_eq_spec a b ha hb
  refine ⟨r, hr, ?_, ?_, fun a2 b2 ha2 hb2 hla hlb => ?_⟩
  · simp only [operator_ne, hr, negate]
  · rw [hiff]
    exact live_eq_iff a b ha hb
  · obtain ⟨r2, hr2, hiff2⟩ := operator_eq_spec a2 b2 ha2 hb2
    rw [hla, hlb, ← hiff] at hiff2
    have e : r2 = r := by
      cases r <;> cases r2 <;> simp at hiff2 ⊢
    rw [hr2, e]

/-- C12, on `[1, 2, 3]` with capacity 4 and a stale cell against `[1, 2, 3]`
with capacity 3. -/
theorem operator_eq_postcondition_witness :
    (live_in_buffer (⟨[1, 2, 3, 9], 3, 4⟩ : SimpleVector Nat) ∧
      live_in_buffer (⟨[1, 2, 3], 3, 3⟩ : SimpleVector Nat)) ∧
    ∃ r, operator_eq (⟨[1, 2, 3, 9], 3, 4⟩ : SimpleVector Nat) ⟨[1, 2, 3], 3, 3⟩ = .ok r ∧
      operator_ne (⟨[1, 2, 3, 9], 3, 4⟩ : SimpleVector Nat) ⟨[1, 2, 3], 3, 3⟩ = .ok (!r) ∧
      (r = true ↔ 3 = 3 ∧ ∀ i, i < 3 →
        (⟨[1, 2, 3, 9], 3, 4⟩ : SimpleVector Nat).index i =
          (⟨[1, 2, 3], 3, 3⟩ : SimpleVector Nat).index i) ∧
      (∀ a2 b2 : SimpleVector Nat, live_in_buffer a2 → live_in_buffer b2 →
        live a2 = [1, 2, 3] → live b2 = [1, 2, 3] → operator_eq a2 b2 = .ok r) :=
  ⟨by decide,
    operator_eq_postcondition ⟨[1, 2, 3, 9], 3, 4⟩ ⟨[1, 2, 3], 3, 3⟩ (by decide) (by decide)⟩

/-- C13: over a linearly ordered element type the relational operators form a
consistent total order: for two vectors `a` and `b` exactly one of `a < b`,
`a == b`, `b < a` holds, `a <= b` is `a < b or a == b`, and `a >= b` is
`a > b or a == b`. -/
theorem operators_total_order [LinearOrder α] (a b : SimpleVector α)
    (ha : live_in_buffer a) (hb : live_in_buffer b) :
    ∃ lt eq gt : Bool, operator_lt a b = .ok lt ∧ operator_eq a b = .ok eq ∧
      operator_lt b a = .ok gt ∧ operator_gt a b = .ok gt ∧
      ((lt = true ∧ eq = false ∧ gt = false) ∨ (lt = false ∧ eq = true ∧ gt = false) ∨
        (lt = false ∧ eq = false ∧ gt = true)) ∧
      operator_le a b = .ok (lt || eq) ∧ operator_ge a b = .ok (gt || eq) := by
  obtain ⟨eq, heq, hiff⟩ := operator_eq_spec a b ha hb
  have hlt := operator_lt_spec a b ha hb
  have hgt := operator_lt_spec b a hb ha
  have tri : (lexLess a.live b.live = true ∧ eq = false ∧ lexLess b.live a.live = false) ∨
      (lexLess a.live b.live = false ∧ eq = true ∧ lexLess b.live a.live = false) ∨
      (lexLess a.live b.live = false ∧ eq = false ∧ lexLess b.live a.live = true) := by
    cases h1 : lexLess a.live b.live
    · cases h2 : lexLess b.live a.live
      · right; left
        exact ⟨rfl, hiff.mpr (lexLess_total _ _ h1 h2), rfl⟩
      · right; right
        refine ⟨rfl, ?_, rfl⟩
        cases he : eq
        · rfl
        · rw [hiff.mp he, lexLess_irrefl] at h2
          cases h2
    · left
      refine ⟨rfl, ?_, lexLess_asymm _ _ h1⟩
      cases he : eq
      · rfl
      · rw [hiff.mp he, lexLess_irrefl] at h1
        cases h1
  refine ⟨_, eq, _, hlt, heq, hgt, hgt, tri, ?_, ?_⟩
  · simp only [operator_le, hgt, negate]
    rcases tri with ⟨h1, h2, h3⟩ | ⟨h1, h2, h3⟩ | ⟨h1, h2, h3⟩ <;> simp [h1, h2, h3]
  · simp only [operator_ge, hlt, negate]
    rcases tri with ⟨h1, h2, h3⟩ | ⟨h1, h2, h3⟩ | ⟨h1, h2, h3⟩ <;> simp [h1, h2, h3]

/-- C13, on `[1, 2, 3]` against `[1, 2, 4]`. -/
theorem operators_total_order_witness :
    (live_in_buffer (⟨[1, 2, 3], 3, 3⟩ : SimpleVector Nat) ∧
      live_in_buffer (⟨[1, 2, 4], 3, 3⟩ : SimpleVector Nat)) ∧
    ∃ lt eq gt : Bool,
      operator_lt (⟨[1, 2, 3], 3, 3⟩ : SimpleVector Nat) ⟨[1, 2, 4], 3, 3⟩ = .ok lt ∧
      operator_eq (⟨[1, 2, 3], 3, 3⟩ : SimpleVector Nat) ⟨[1, 2, 4], 3, 3⟩ = .ok eq ∧
      operator_lt (⟨[1, 2, 4], 3, 3⟩ : SimpleVector Nat) ⟨[1, 2, 3], 3, 3⟩ = .ok gt ∧
      operator_gt (⟨[1, 2, 3], 3, 3⟩ : SimpleVector Nat) ⟨[1, 2, 4], 3, 3⟩ = .ok gt ∧
      ((lt = true ∧ eq = false ∧ gt = false) ∨ (lt = false ∧ eq = true ∧ gt = false) ∨
        (lt = false ∧ eq = false ∧ gt = true)) ∧
      operator_le (⟨[1, 2, 3], 3, 3⟩ : SimpleVector Nat) ⟨[1, 2, 4], 3, 3⟩ = .ok (lt || eq) ∧
      operator_ge (⟨[1, 2, 3], 3, 3⟩ : SimpleVector Nat) ⟨[1, 2, 4], 3, 3⟩ = .ok (gt || eq) :=
  ⟨by decide,
    operators_total_order ⟨[1, 2, 3], 3, 3⟩ ⟨[1, 2, 4], 3, 3⟩ (by decide) (by decide)⟩

/-- C14, evaluated where the claim fails: `Erase(end())` on `[1, 2, 3]`.  The
`assert` admits `pos == end()`, but the call is no no-op: the range
`[pos + 1, cend())` handed to `std::copy` starts beyond its end, so no vector
results. -/
theorem Erase_at_end_invalid_range :
    Inv (⟨[1, 2, 3], 3, 3⟩ : SimpleVector Nat) ∧
    Erase (⟨[1, 2, 3], 3, 3⟩ : SimpleVector Nat) 3 = .error .invalid_range :=
  ⟨by decide, rfl⟩

/-- C17: move construction from `v` yields a vector with the size, capacity,
buffer and live elements `v` had, and leaves `v` with size 0 and capacity 0. -/
theorem ctor_move_postcondition (v : SimpleVector α) :
    (ctor_move v).1.size_ = v.size_ ∧ (ctor_move v).1.capacity_ = v.capacity_ ∧
    (ctor_move v).1.items_ = v.items_ ∧ live (ctor_move v).1 = live v ∧
    (ctor_move v).2.size_ = 0 ∧ (ctor_move v).2.capacity_ = 0 ∧
    live (ctor_move v).2 = [] :=
  ⟨rfl, rfl, rfl, rfl, rfl, rfl, rfl⟩

/-- C18: `a.swap(b)` exchanges the full state: afterwards `a` has the size,
capacity and buffer `b` had, and `b` has those `a` had; swapping twice restores
both vectors. -/
theorem swap_postcondition (a b : SimpleVector α) :
    ((swap a b).1.size_ = b.size_ ∧ (swap a b).1.capacity_ = b.capacity_ ∧
      (swap a b).1.items_ = b.items_) ∧
    ((swap a b).2.size_ = a.size_ ∧ (swap a b).2.capacity_ = a.capacity_ ∧
      (swap a b).2.items_ = a.items_) ∧
    swap (swap a b).1 (swap a b).2 = (a, b) :=
  ⟨⟨rfl, rfl, rfl⟩, ⟨rfl, rfl, rfl⟩, rfl⟩

/-- C19, evaluated where the claim fails: the copy of a vector of size 2 and
capacity 4 owns a buffer of 2 cells while its capacity is 4, and a `PushBack`
or an `Insert` on the copy, taking the `size < capacity` path, writes outside
that buffer. -/
theorem ctor_copy_buffer_shorter_than_capacity :
    Inv (⟨[1, 2, 7, 7], 2, 4⟩ : SimpleVector Nat) ∧
    ctor_copy (fun _ => 7) (⟨[1, 2, 7, 7], 2, 4⟩ : SimpleVector Nat) = .ok ⟨[1, 2], 2, 4⟩ ∧
    (⟨[1, 2], 2, 4⟩ : SimpleVector Nat).items_.length = 2 ∧
    ¬ Inv (⟨[1, 2], 2, 4⟩ : SimpleVector Nat) ∧
    PushBack (fun _ => 7) (fun _ => 7) (⟨[1, 2], 2, 4⟩ : SimpleVector Nat) (.outside 3) =
      .error .out_of_bounds ∧
    Insert (fun _ => 7) (fun _ => 7) (⟨[1, 2], 2, 4⟩ : SimpleVector Nat) 0 (.outside 3) =
      .error .out_of_bounds :=
  ⟨by decide, rfl, rfl, by decide, rfl, rfl⟩

/-- C20, evaluated where the claim fails.  On a vector of size 2 and capacity
6, `Resize(3)` writes the cells `[2, 5)`, not `[2, 3)`: positions 3 and 4 are
overwritten.  On a vector of size 2 and capacity 3, `Resize(3)` reaches a cell
at or beyond the capacity. -/
theorem Resize_fill_range_from_end :
    Inv (⟨[1, 2, 7, 7, 7, 7], 2, 6⟩ : SimpleVector Nat) ∧
    Resize (fun _ => 7) (⟨[1, 2, 7, 7, 7, 7], 2, 6⟩ : SimpleVector Nat) 3 =
      .ok ⟨[1, 2, 0, 0, 0, 7], 2, 6⟩ ∧
    Inv (⟨[1, 2, 7], 2, 3⟩ : SimpleVector Nat) ∧
    Resize (fun _ => 7) (⟨[1, 2, 7], 2, 3⟩ : SimpleVector Nat) 3 = .error .out_of_bounds :=
  ⟨by decide, rfl, by decide, rfl⟩

end SimpleVector

end SimpleVec
